import Mathlib

/-!
Verification of the WordMesh backend core (Rust) against its specification.

We shallowly embed the relevant Rust code in Lean:
* Rust `String`/`&str` values are modelled as `List Char` (`Str`);
* Rust `char::is_whitespace` (the Unicode `White_Space` property, which is
  also what the `regex` crate's `\s` matches) is `isRustWhitespace`;
* Rust `char::is_ascii_punctuation` is `isAsciiPunct`;
* Rust `str::to_lowercase` is modelled character-wise by its ASCII fragment
  `asciiToLower` (the Unicode lowercase table outside ASCII is abstracted to
  the identity); Rust `to_ascii_lowercase` is exactly `asciiToLower`;
* fallible functions return `Except`; `&mut self` methods returning
  `Result<(), E>` are modelled as functions returning the post-state paired
  with an optional error, so that mutations performed on a failing path are
  preserved, exactly as in the Rust code.
-/

deriving instance DecidableEq for Except

namespace WordMesh

abbrev Str := List Char

/-- Rust `char::is_whitespace`: the Unicode `White_Space` code points.
The `regex` crate's `\s` class matches exactly the same set. -/
def isRustWhitespace (c : Char) : Bool :=
  decide (c.toNat = 9 ∨ c.toNat = 10 ∨ c.toNat = 11 ∨ c.toNat = 12 ∨ c.toNat = 13 ∨
    c.toNat = 32 ∨ c.toNat = 133 ∨ c.toNat = 160 ∨ c.toNat = 5760 ∨
    c.toNat = 8192 ∨ c.toNat = 8193 ∨ c.toNat = 8194 ∨ c.toNat = 8195 ∨
    c.toNat = 8196 ∨ c.toNat = 8197 ∨ c.toNat = 8198 ∨ c.toNat = 8199 ∨
    c.toNat = 8200 ∨ c.toNat = 8201 ∨ c.toNat = 8202 ∨ c.toNat = 8232 ∨
    c.toNat = 8233 ∨ c.toNat = 8239 ∨ c.toNat = 8287 ∨ c.toNat = 12288)

/-- Rust `char::is_ascii_punctuation`: `!`..`/`, `:`..`@`, `[`..`` ` ``, `{`..`~`. -/
def isAsciiPunct (c : Char) : Bool :=
  decide ((33 ≤ c.toNat ∧ c.toNat ≤ 47) ∨ (58 ≤ c.toNat ∧ c.toNat ≤ 64) ∨
    (91 ≤ c.toNat ∧ c.toNat ≤ 96) ∨ (123 ≤ c.toNat ∧ c.toNat ≤ 126))

/-- ASCII lowercasing of one character (`char::to_ascii_lowercase`;
also our character-wise model of `str::to_lowercase`). -/
def asciiToLower (c : Char) : Char :=
  if 65 ≤ c.toNat ∧ c.toNat ≤ 90 then Char.ofNat (c.toNat + 32) else c

/-- `str::trim_start`-like one-sided trim by a character predicate. -/
def trimLeftBy (p : Char → Bool) (l : Str) : Str := l.dropWhile p

/-- `str::trim_end`-like one-sided trim by a character predicate. -/
def trimRightBy (p : Char → Bool) (l : Str) : Str := (l.reverse.dropWhile p).reverse

/-- Two-sided trim by a character predicate (`str::trim_matches` with a
`char`-predicate pattern strips repeated matches from both ends). -/
def trimBy (p : Char → Bool) (l : Str) : Str := trimRightBy p (trimLeftBy p l)

/-- Rust `str::trim`. -/
def rustTrim (l : Str) : Str := trimBy isRustWhitespace l

def isDash (c : Char) : Bool := c = '-'

/-- Rust `str::trim_matches('-')`. -/
def trimDash (l : Str) : Str := trimBy isDash l

/-- `Regex::new(r"\s+").replace_all(_, " ")` from `src/util/canonical.rs`:
replace every maximal run of whitespace by a single space.  The flag records
whether the previous character was part of a whitespace run. -/
def collapseWsAux : Bool → Str → Str
  | _, [] => []
  | prevWs, c :: rest =>
    if isRustWhitespace c then
      if prevWs then collapseWsAux true rest
      else ' ' :: collapseWsAux true rest
    else c :: collapseWsAux false rest

def collapseWs (l : Str) : Str := collapseWsAux false l

/-- State of the scanner for the regex `r"\\s+"` compiled in
`src/domain/word.rs` line 13: as a regular expression it matches a literal
backslash followed by one or more `s` characters (NOT whitespace). -/
inductive BSState where
  | normal
  | sawBackslash
  | inRun
deriving DecidableEq

/-- `Regex::new(r"\\s+").replace_all(_, " ")` from `src/domain/word.rs`:
replace every occurrence of a literal `\` followed by one or more `s`
characters by a single space. -/
def collapseBSAux : BSState → Str → Str
  | .normal, [] => []
  | .sawBackslash, [] => ['\\']
  | .inRun, [] => [' ']
  | .normal, c :: rest =>
    if c = '\\' then collapseBSAux .sawBackslash rest
    else c :: collapseBSAux .normal rest
  | .sawBackslash, c :: rest =>
    if c = 's' then collapseBSAux .inRun rest
    else if c = '\\' then '\\' :: collapseBSAux .sawBackslash rest
    else '\\' :: c :: collapseBSAux .normal rest
  | .inRun, c :: rest =>
    if c = 's' then collapseBSAux .inRun rest
    else if c = '\\' then ' ' :: collapseBSAux .sawBackslash rest
    else ' ' :: c :: collapseBSAux .normal rest

def collapseBS (l : Str) : Str := collapseBSAux .normal l

/-- The character loop of `canonicalize` / `normalize_canonical_text`
(`for ch in replaced.chars()` with the `last_dash` flag): push `-` only when
the previous pushed character was not a `-`, drop other ASCII punctuation,
keep everything else. -/
def cleanedAux : Bool → Str → Str
  | _, [] => []
  | lastDash, c :: rest =>
    if c = '-' then
      if lastDash then cleanedAux true rest
      else '-' :: cleanedAux true rest
    else if isAsciiPunct c then cleanedAux lastDash rest
    else c :: cleanedAux false rest

def mapLower (l : Str) : Str := l.map asciiToLower

def mapSpaceToDash (l : Str) : Str := l.map (fun c => if c = ' ' then '-' else c)

/-- The tail of the normalization pipeline shared verbatim by
`src/util/canonical.rs` (lines 38-56) and `src/domain/word.rs` (lines 60-77):
lowercase, replace spaces by dashes, run the cleaning loop, trim dashes. -/
def canonTail (stripped : Str) : Str :=
  trimDash (cleanedAux false (mapSpaceToDash (mapLower stripped)))

inductive CanonicalError where
  | Empty
deriving DecidableEq

/-- `canonicalize` from `src/util/canonical.rs` lines 24-62. -/
def canonicalize (x : Str) : Except CanonicalError Str :=
  if rustTrim x = [] then .error .Empty
  else if rustTrim (trimBy isAsciiPunct (collapseWs (rustTrim x))) = [] then .error .Empty
  else if canonTail (rustTrim (trimBy isAsciiPunct (collapseWs (rustTrim x)))) = [] then
    .error .Empty
  else .ok (canonTail (rustTrim (trimBy isAsciiPunct (collapseWs (rustTrim x)))))

/-- `normalize_canonical_text` from `src/domain/word.rs` lines 46-78.  The
only difference from the body of `canonicalize` is the whitespace regex: the
domain file compiles `r"\\s+"` (`collapseBS`) instead of `r"\s+"`
(`collapseWs`), and empty intermediate results are returned as the empty
string instead of an error. -/
def normalize_canonical_text (x : Str) : Str :=
  if rustTrim x = [] then []
  else if rustTrim (trimBy isAsciiPunct (collapseBS (rustTrim x))) = [] then []
  else canonTail (rustTrim (trimBy isAsciiPunct (collapseBS (rustTrim x))))

inductive CanonicalKeyError where
  | Empty
deriving DecidableEq

/-- `CanonicalKey::new` from `src/domain/word.rs` lines 27-33.  `CanonicalKey`
is a newtype over `String`; we represent the key by the contained string
(`as_str`). -/
def canonicalKeyNew (x : Str) : Except CanonicalKeyError Str :=
  if normalize_canonical_text x = [] then .error .Empty
  else .ok (normalize_canonical_text x)

/-- `canonical_like_pattern` from `src/repository/word.rs` lines 224-226:
`text.trim().to_lowercase().replace(' ', "-")`. -/
def canonical_like_pattern (t : Str) : Str := mapSpaceToDash (mapLower (rustTrim t))

/-- The `ILIKE` pattern bound for `SearchScope::Word` in
`PgWordRepository::search` (`src/repository/word.rs` lines 546-549):
`format!("%{}%", Self::canonical_like_pattern(trimmed))` with
`trimmed = params.query.trim()`. -/
def searchWordPattern (q : Str) : Str :=
  '%' :: (canonical_like_pattern (rustTrim q) ++ ['%'])

/-- `b` holds at no two consecutive positions of the list. -/
def noTwoConsec (p : Char → Bool) : List Char → Bool
  | [] => true
  | [_] => true
  | a :: b :: t => !(p a && p b) && noTwoConsec p (b :: t)

/-- No backslash is immediately followed by an `s`: on such strings the
domain regex `r"\\s+"` has no match. -/
def noBackslashS : List Char → Bool
  | a :: b :: t => !((a == '\\') && (b == 's')) && noBackslashS (b :: t)
  | _ => true

/-- One character of the shared pipeline tail: lowercase, then turn a space
into a dash (`mapSpaceToDash ∘ mapLower`, character-wise). -/
def canonCharMap (c : Char) : Char :=
  if asciiToLower c = ' ' then '-' else asciiToLower c

/-- Whether the first character of the list is whitespace. -/
def headIsWs (l : Str) : Bool :=
  match l.head? with
  | some c => isRustWhitespace c
  | none => false

/-- The `prevWs` state of `collapseWsAux` after processing `l` from initial
state `b`: the whitespace-ness of the last character, or `b` for the empty
list. -/
def collapseEndWs (b : Bool) (l : Str) : Bool :=
  match l.getLast? with
  | some d => isRustWhitespace d
  | none => b

/-! ## The `UserWord`/`UserSense` domain (`src/domain/word.rs`)

`created_at : DateTime<Utc>` fields are omitted from the model: they are
wall-clock timestamps never read by any of the modelled operations. -/

/-- `UserSense` (`src/domain/word.rs` lines 91-99). -/
structure UserSense where
  id : Option Int
  text : Str
  is_primary : Bool
  sort_order : Int
  note : Option Str
deriving DecidableEq

/-- `UserWord` (`src/domain/word.rs` lines 80-89). -/
structure UserWord where
  id : Option Int
  user_id : Int
  word_id : Int
  tags : List Str
  note : Option Str
  senses : List UserSense
deriving DecidableEq

/-- `UserSenseError` (`src/domain/word.rs` lines 121-131). -/
inductive UserSenseError where
  | EmptyText
  | TextTooLong (n : Nat)
  | InvalidNote
  | NoteTooLong (n : Nat)
deriving DecidableEq

/-- `UserWordError` (`src/domain/word.rs` lines 101-119). -/
inductive UserWordError where
  | TagLimitExceeded (n : Nat)
  | InvalidTag (t : Str)
  | InvalidNote
  | NoteTooLong (n : Nat)
  | DuplicateSenseText (t : Str)
  | SenseNotFound (i : Int)
  | SenseIndexOutOfBounds (i : Nat)
  | Sense (e : UserSenseError)
deriving DecidableEq

/-- `str::eq_ignore_ascii_case`. -/
def eqIgnoreAsciiCase (a b : Str) : Bool := a.map asciiToLower == b.map asciiToLower

/-- One character of the tag regex `^[A-Za-z0-9_-]{1,24}$`
(`src/domain/word.rs` line 15, identically `src/util/validation.rs` line 10). -/
def isTagChar (c : Char) : Bool :=
  decide ((65 ≤ c.toNat ∧ c.toNat ≤ 90) ∨ (97 ≤ c.toNat ∧ c.toNat ≤ 122) ∨
    (48 ≤ c.toNat ∧ c.toNat ≤ 57) ∨ c.toNat = 95 ∨ c.toNat = 45)

/-- `TAG_REGEX.is_match`: the whole string matches `^[A-Za-z0-9_-]{1,24}$`. -/
def tagMatches (l : Str) : Bool :=
  decide (1 ≤ l.length) && decide (l.length ≤ 24) && l.all isTagChar

/-- `str::to_ascii_lowercase`. -/
def toAsciiLowerStr (l : Str) : Str := l.map asciiToLower

def MAX_TAGS : Nat := 20
def MAX_NOTE_LENGTH : Nat := 512

/-- The loop of `normalize_tags` (`src/domain/word.rs` lines 342-357, and the
identical copy in `src/util/validation.rs` lines 54-69): `seen` is the set of
already-inserted lowercase keys (modelled as a list), and the result is the
`normalized` vector accumulated so far. -/
def normalizeTagsGo (seen : List Str) : List Str → Except UserWordError (List Str)
  | [] => .ok []
  | raw :: rest =>
    if rustTrim raw = [] then .error (.InvalidTag raw)
    else if ¬ tagMatches (rustTrim raw) then .error (.InvalidTag (rustTrim raw))
    else if toAsciiLowerStr (rustTrim raw) ∈ seen then normalizeTagsGo seen rest
    else
      match normalizeTagsGo (toAsciiLowerStr (rustTrim raw) :: seen) rest with
      | .error e => .error e
      | .ok tail => .ok (rustTrim raw :: tail)

/-- `normalize_tags` (`src/domain/word.rs` lines 342-362): run the loop, then
fail with `TagLimitExceeded` when more than `MAX_TAGS` deduplicated tags
remain. -/
def normalize_tags (tags : List Str) : Except UserWordError (List Str) :=
  match normalizeTagsGo [] tags with
  | .error e => .error e
  | .ok normalized =>
    if MAX_TAGS < normalized.length then .error (.TagLimitExceeded normalized.length)
    else .ok normalized

/-- The number of case-insensitively distinct trimmed tag values: the
"case-insensitively deduplicated count" of the specification. -/
def dedupCount (tags : List Str) : Nat :=
  ((tags.map (fun t => toAsciiLowerStr (rustTrim t))).dedup).length

/-- `validate_note` (`src/domain/word.rs` lines 364-378). -/
def validate_note (note : Option Str) : Except UserWordError (Option Str) :=
  match note with
  | some value =>
    if rustTrim value = [] then .error .InvalidNote
    else if MAX_NOTE_LENGTH < (rustTrim value).length then
      .error (.NoteTooLong (rustTrim value).length)
    else .ok (some (rustTrim value))
  | none => .ok none

/-- `UserWord::create` (`src/domain/word.rs` lines 134-151). -/
def UserWord.create (user_id word_id : Int) (tags : List Str) (note : Option Str) :
    Except UserWordError UserWord :=
  match normalize_tags tags with
  | .error e => .error e
  | .ok tags =>
    match validate_note note with
    | .error e => .error e
    | .ok note => .ok ⟨none, user_id, word_id, tags, note, []⟩

/-- `UserWord::clear_primary` (`src/domain/word.rs` lines 265-269). -/
def UserWord.clear_primary (w : UserWord) : UserWord :=
  { w with senses := w.senses.map (fun s => { s with is_primary := false }) }

/-- `i32::MIN`, the sentinel `sort_order` value. -/
def i32Min : Int := -2147483648

/-- Insert a sense into a list sorted by `sort_order`, after all entries with
a key less than or equal to its own. -/
def insertSorted (s : UserSense) : List UserSense → List UserSense
  | [] => [s]
  | t :: rest =>
    if t.sort_order ≤ s.sort_order then t :: insertSorted s rest
    else s :: t :: rest

/-- `Vec::sort_by_key(|s| s.sort_order)` is a stable sort; any stable sort is
extensionally unique, so we model it by stable insertion sort (elements are
inserted left to right, each after all previously placed entries with a key
less than or equal to its own). -/
def sortBySortOrder (l : List UserSense) : List UserSense :=
  l.foldl (fun acc s => insertSorted s acc) []

/-- `UserWord::add_sense` (`src/domain/word.rs` lines 205-225).  The method
takes `&mut self` and returns `Result<(), UserWordError>`; we return the
post-state paired with the optional error. -/
def UserWord.add_sense (w : UserWord) (s : UserSense) : UserWord × Option UserWordError :=
  if w.senses.any (fun ex => eqIgnoreAsciiCase ex.text s.text) then
    (w, some (.DuplicateSenseText s.text))
  else
    let w1 := if s.is_primary then w.clear_primary else w
    let s1 := if s.sort_order = i32Min then { s with sort_order := 0 } else s
    ({ w1 with senses := sortBySortOrder (w1.senses ++ [s1]) }, none)

/-- `UserWord::set_primary_by_id` (`src/domain/word.rs` lines 227-241).  The
loop sets `is_primary` on every sense (true exactly for senses whose id is
`Some(sense_id)`) before the `found` check, so the flag updates persist even
when the method returns `SenseNotFound`. -/
def UserWord.set_primary_by_id (w : UserWord) (sense_id : Int) :
    UserWord × Option UserWordError :=
  ({ w with senses := w.senses.map (fun s => { s with is_primary := s.id == some sense_id }) },
    if w.senses.any (fun s => s.id == some sense_id) then none
    else some (.SenseNotFound sense_id))

/-- Set `is_primary := (position = i)` where `k` is the position of the head
of the remaining list (the `enumerate` loop of `set_primary_by_index`). -/
def assignPrimaryFrom (k i : Nat) : List UserSense → List UserSense
  | [] => []
  | s :: rest => { s with is_primary := k == i } :: assignPrimaryFrom (k + 1) i rest

/-- `UserWord::set_primary_by_index` (`src/domain/word.rs` lines 243-251).
The bounds check precedes any mutation. -/
def UserWord.set_primary_by_index (w : UserWord) (i : Nat) :
    UserWord × Option UserWordError :=
  if w.senses.length ≤ i then (w, some (.SenseIndexOutOfBounds i))
  else ({ w with senses := assignPrimaryFrom 0 i w.senses }, none)

/-- One mutation of claim C1's operation sequences. -/
inductive WordOp where
  | addSense (s : UserSense)
  | setPrimaryById (sense_id : Int)
  | setPrimaryByIndex (i : Nat)
deriving DecidableEq

/-- The aggregate state after one call, whether it succeeded or failed. -/
def applyOp (w : UserWord) : WordOp → UserWord
  | .addSense s => (w.add_sense s).1
  | .setPrimaryById sid => (w.set_primary_by_id sid).1
  | .setPrimaryByIndex i => (w.set_primary_by_index i).1

/-- The aggregate state after a sequence of calls. -/
def runOps (w : UserWord) (ops : List WordOp) : UserWord := ops.foldl applyOp w

/-- Number of senses with `is_primary == true`. -/
def primaryCount (w : UserWord) : Nat := w.senses.countP (fun s => s.is_primary)

/-- The `Some` ids of a sense list. -/
def senseIds (l : List UserSense) : List Int := l.filterMap (fun s => s.id)

/-- The `Some` id carried by an operation (only `addSense` carries one). -/
def opAddedIds : WordOp → List Int
  | .addSense s => s.id.toList
  | _ => []

/-- All `Some` ids carried by the senses of a sequence's `addSense` calls. -/
def opsAddedIds (ops : List WordOp) : List Int := (ops.map opAddedIds).flatten

/-! ## The graph relationship store (`src/repository/graph.rs`) -/

/-- `WordLinkKind` (`src/repository/graph.rs` lines 26-30). -/
inductive WordLinkKind where
  | SimilarForm
  | RootAffix
deriving DecidableEq

/-- `LinkError` (`src/util/error.rs` lines 97-108). -/
inductive LinkError where
  | Exists
  | SelfForbidden
  | TargetNotFound
  | TypeInvalid
  | LimitExceeded
deriving DecidableEq

/-- `BusinessError` (`src/util/error.rs` lines 25-38); only the `Link`
injection is reachable from the modelled operations, the other variants are
collapsed into `Other`. -/
inductive BusinessError where
  | Link (e : LinkError)
  | Other
deriving DecidableEq

/-- Opaque model of `neo4rs::Error`: the modelled code never inspects the
payload. -/
structure Neo4jError where
  code : Nat
deriving DecidableEq

/-- `GraphRepositoryError` (`src/repository/graph.rs` lines 14-24). -/
inductive GraphRepositoryError where
  | Database (e : Neo4jError)
  | Timeout
  | InvalidData (msg : Str)
  | Business (e : BusinessError)
deriving DecidableEq

/-- `Neo4jGraphRepository::sort_word_ids` (`src/repository/graph.rs`
lines 273-285). -/
def sort_word_ids (word_a_id word_b_id : Int) : Except GraphRepositoryError (Int × Int) :=
  if word_a_id = word_b_id then .error (.Business (.Link .SelfForbidden))
  else if word_a_id < word_b_id then .ok (word_a_id, word_b_id)
  else .ok (word_b_id, word_a_id)

/-- The parameters bound to the `MERGE` query of `create_word_link`
(`src/repository/graph.rs` lines 296-305): the stored edge is determined by
these values. -/
structure WordLinkQueryParams where
  min_id : Int
  max_id : Int
  user_id : Int
  kind : WordLinkKind
  note : Option Str
deriving DecidableEq

/-- The pure prefix of `create_word_link` (`src/repository/graph.rs`
lines 289-305): reorder the ids via `sort_word_ids` (returning early on its
error, before any store access) and build the query parameters. -/
def create_word_link_params (user_id word_a_id word_b_id : Int) (kind : WordLinkKind)
    (note : Option Str) : Except GraphRepositoryError WordLinkQueryParams :=
  match sort_word_ids word_a_id word_b_id with
  | .error e => .error e
  | .ok (mn, mx) => .ok ⟨mn, mx, user_id, kind, note⟩

/-- Opaque model of a `neo4rs::Row`: none of the modelled control flow
inspects the payload, so row parsing is abstracted as a function parameter of
the operations below. -/
structure Neo4jRow where
  payload : Nat
deriving DecidableEq

/-- The successive outcomes of `result.next().await` on a `RowStream`:
each step yields a row, the end of the stream, or a stream error. -/
abbrev RowStream := List (Except Neo4jError (Option Neo4jRow))

/-- The row-draining loop of `run_with_timeout`
(`while let Ok(Some(row)) = result.next().await { rows.push(row) }`,
`src/repository/graph.rs` lines 189-192): collect rows until the first
`Ok(None)` or `Err(_)`, silently stopping on a stream error.  In the source
this loop runs after the `timeout(..)` future has already resolved, i.e.
outside the timed window. -/
def drainRows : RowStream → List Neo4jRow
  | .ok (some r) :: rest => r :: drainRows rest
  | _ => []

/-- Outcome of `timeout(self.timeout, self.graph.execute(query)).await`
(`src/repository/graph.rs` line 187): only `graph.execute` runs under the
timer; either the timer elapsed first, or the call completed with a backend
error or a row stream (drained afterwards, outside the timed window). -/
inductive ExecOutcome where
  | elapsed
  | completed (r : Except Neo4jError RowStream)
deriving DecidableEq

/-- `Neo4jGraphRepository::run_with_timeout` (`src/repository/graph.rs`
lines 186-198) as a function of the execution outcome: timer expiry maps to
`Timeout`, a backend error maps to `Database`, and a completed call yields
the rows drained (post-timer) from the stream. -/
def run_with_timeout (o : ExecOutcome) : Except GraphRepositoryError (List Neo4jRow) :=
  match o with
  | .elapsed => .error .Timeout
  | .completed (.error e) => .error (.Database e)
  | .completed (.ok stream) => .ok (drainRows stream)

/-- `SenseWordLinkKind` (`src/repository/graph.rs` lines 49-54). -/
inductive SenseWordLinkKind where
  | Synonym
  | Antonym
  | Related
deriving DecidableEq

/-- `WordLinkRecord` (`src/repository/graph.rs` lines 75-84), minus the
`created_at` timestamp. -/
structure WordLinkRecord where
  link_id : Str
  user_id : Int
  kind : WordLinkKind
  note : Option Str
  word_a_id : Int
  word_b_id : Int
deriving DecidableEq

/-- `SenseWordLinkRecord` (`src/repository/graph.rs` lines 86-96), minus the
`created_at` timestamp. -/
structure SenseWordLinkRecord where
  link_id : Str
  user_id : Int
  kind : SenseWordLinkKind
  note : Option Str
  sense_id : Int
  source_word_id : Int
  target_word_id : Int
deriving DecidableEq

/-- `WordLinkFilter` (`src/repository/graph.rs` lines 98-105). -/
structure WordLinkFilter where
  user_id : Int
  kind : Option WordLinkKind
  word_id : Int
  limit : Int
  offset : Int
deriving DecidableEq

/-- `SenseLinkFilter` (`src/repository/graph.rs` lines 107-114). -/
structure SenseLinkFilter where
  user_id : Int
  sense_id : Int
  kind : Option SenseWordLinkKind
  limit : Int
  offset : Int
deriving DecidableEq

/-- `rows.into_iter().map(parse).collect::<GraphResult<Vec<_>>>()`: parse
every row, aborting at the first parse error. -/
def collectResults {β : Type} (parse : Neo4jRow → Except GraphRepositoryError β) :
    List Neo4jRow → Except GraphRepositoryError (List β)
  | [] => .ok []
  | r :: rest =>
    match parse r with
    | .error e => .error e
    | .ok b =>
      match collectResults parse rest with
      | .error e => .error e
      | .ok bs => .ok (b :: bs)

/-- `create_word_link` (`src/repository/graph.rs` lines 289-318) as a
function of the execution outcome of its `MERGE` query (built from the
parameters of `create_word_link_params`): reorder ids via `sort_word_ids`,
run the query through `run_with_timeout`, pop the last row (`rows.pop()`),
parse it (`parse_word_link` abstracted as `parse`), and overwrite the record
ids with the caller's original order. -/
def create_word_link (parse : Neo4jRow → Except GraphRepositoryError WordLinkRecord)
    (user_id word_a_id word_b_id : Int) (kind : WordLinkKind) (note : Option Str)
    (o : ExecOutcome) : Except GraphRepositoryError WordLinkRecord :=
  match sort_word_ids word_a_id word_b_id with
  | .error e => .error e
  | .ok _ =>
    match run_with_timeout o with
    | .error e => .error e
    | .ok rows =>
      match rows.getLast? with
      | some row =>
        match parse row with
        | .error e => .error e
        | .ok record => .ok { record with word_a_id := word_a_id, word_b_id := word_b_id }
      | none => .error (.InvalidData ("create_word_link returned no rows".toList))

/-- `delete_word_link` (`src/repository/graph.rs` lines 320-336). -/
def delete_word_link (user_id word_a_id word_b_id : Int) (kind : WordLinkKind)
    (o : ExecOutcome) : Except GraphRepositoryError Unit :=
  match sort_word_ids word_a_id word_b_id with
  | .error e => .error e
  | .ok _ => (run_with_timeout o).map (fun _ => ())

/-- `list_word_links` (`src/repository/graph.rs` lines 338-356). -/
def list_word_links (parse : Neo4jRow → Except GraphRepositoryError WordLinkRecord)
    (filter : WordLinkFilter) (o : ExecOutcome) :
    Except GraphRepositoryError (List WordLinkRecord) :=
  match run_with_timeout o with
  | .error e => .error e
  | .ok rows => collectResults parse rows

/-- `create_sense_word_link` (`src/repository/graph.rs` lines 358-396):
reject a self link, run the `MERGE` through `run_with_timeout`, take the
first row (`rows.into_iter().next()`), parse it, and overwrite a diverging
`source_word_id`. -/
def create_sense_word_link (parse : Neo4jRow → Except GraphRepositoryError SenseWordLinkRecord)
    (user_id sense_id source_word_id target_word_id : Int) (kind : SenseWordLinkKind)
    (note : Option Str) (o : ExecOutcome) : Except GraphRepositoryError SenseWordLinkRecord :=
  if source_word_id = target_word_id then
    .error (.Business (.Link .SelfForbidden))
  else
    match run_with_timeout o with
    | .error e => .error e
    | .ok rows =>
      match rows.head? with
      | some row =>
        match parse row with
        | .error e => .error e
        | .ok record =>
          .ok (if record.source_word_id ≠ source_word_id then
            { record with source_word_id := source_word_id } else record)
      | none => .error (.InvalidData ("create_sense_word_link returned no rows".toList))

/-- `delete_sense_word_link` (`src/repository/graph.rs` lines 398-414). -/
def delete_sense_word_link (user_id sense_id target_word_id : Int)
    (kind : SenseWordLinkKind) (o : ExecOutcome) : Except GraphRepositoryError Unit :=
  (run_with_timeout o).map (fun _ => ())

/-- `list_sense_word_links` (`src/repository/graph.rs` lines 416-438). -/
def list_sense_word_links (parse : Neo4jRow → Except GraphRepositoryError SenseWordLinkRecord)
    (filter : SenseLinkFilter) (o : ExecOutcome) :
    Except GraphRepositoryError (List SenseWordLinkRecord) :=
  match run_with_timeout o with
  | .error e => .error e
  | .ok rows => collectResults parse rows

/-- `remove_links_for_sense` (`src/repository/graph.rs` lines 440-446). -/
def remove_links_for_sense (sense_id : Int) (o : ExecOutcome) :
    Except GraphRepositoryError Unit :=
  (run_with_timeout o).map (fun _ => ())

/-- `upsert_node_word` (`src/repository/graph.rs` lines 448-452). -/
def upsert_node_word (word_id : Int) (o : ExecOutcome) :
    Except GraphRepositoryError Unit :=
  (run_with_timeout o).map (fun _ => ())

/-- `upsert_node_sense` (`src/repository/graph.rs` lines 454-461). -/
def upsert_node_sense (sense_id user_id : Int) (o : ExecOutcome) :
    Except GraphRepositoryError Unit :=
  (run_with_timeout o).map (fun _ => ())

/-! ## Character-level facts -/

theorem char_eq_of_toNat_eq {c d : Char} (h : c.toNat = d.toNat) : c = d :=
  Char.ext (UInt32.ext h)

theorem charOfNat_toNat {n : Nat} (h : n.isValidChar) : (Char.ofNat n).toNat = n := by
  simp [Char.ofNat, h, Char.ofNatAux, Char.toNat, UInt32.toNat]

theorem asciiToLower_toNat (c : Char) :
    (asciiToLower c).toNat =
      if 65 ≤ c.toNat ∧ c.toNat ≤ 90 then c.toNat + 32 else c.toNat := by
  unfold asciiToLower
  by_cases h : 65 ≤ c.toNat ∧ c.toNat ≤ 90
  · rw [if_pos h, if_pos h]
    apply charOfNat_toNat
    unfold Nat.isValidChar
    omega
  · rw [if_neg h, if_neg h]

theorem ws_asciiToLower (c : Char) :
    isRustWhitespace (asciiToLower c) = isRustWhitespace c := by
  simp only [isRustWhitespace, decide_eq_decide, asciiToLower_toNat]
  by_cases h : 65 ≤ c.toNat ∧ c.toNat ≤ 90
  · rw [if_pos h]; omega
  · rw [if_neg h]

theorem punct_asciiToLower (c : Char) :
    isAsciiPunct (asciiToLower c) = isAsciiPunct c := by
  simp only [isAsciiPunct, decide_eq_decide, asciiToLower_toNat]
  by_cases h : 65 ≤ c.toNat ∧ c.toNat ≤ 90
  · rw [if_pos h]; omega
  · rw [if_neg h]

theorem asciiToLower_idem (c : Char) :
    asciiToLower (asciiToLower c) = asciiToLower c := by
  apply char_eq_of_toNat_eq
  rw [asciiToLower_toNat (asciiToLower c)]
  have hm := asciiToLower_toNat c
  have hnot : ¬(65 ≤ (asciiToLower c).toNat ∧ (asciiToLower c).toNat ≤ 90) := by
    by_cases h : 65 ≤ c.toNat ∧ c.toNat ≤ 90
    · rw [if_pos h] at hm; omega
    · rw [if_neg h] at hm; omega
  rw [if_neg hnot]

theorem asciiToLower_eq_dash_iff (c : Char) : asciiToLower c = '-' ↔ c = '-' := by
  constructor
  · intro h
    have ht : (asciiToLower c).toNat = 45 := by rw [h]; rfl
    rw [asciiToLower_toNat] at ht
    apply char_eq_of_toNat_eq
    show c.toNat = 45
    by_cases hc : 65 ≤ c.toNat ∧ c.toNat ≤ 90
    · rw [if_pos hc] at ht; omega
    · rwa [if_neg hc] at ht
  · intro h; rw [h]; rfl

theorem asciiToLower_eq_space_iff (c : Char) : asciiToLower c = ' ' ↔ c = ' ' := by
  constructor
  · intro h
    have ht : (asciiToLower c).toNat = 32 := by rw [h]; rfl
    rw [asciiToLower_toNat] at ht
    apply char_eq_of_toNat_eq
    show c.toNat = 32
    by_cases hc : 65 ≤ c.toNat ∧ c.toNat ≤ 90
    · rw [if_pos hc] at ht; omega
    · rwa [if_neg hc] at ht
  · intro h; rw [h]; rfl

theorem ne_dash_of_not_punct {c : Char} (h : isAsciiPunct c = false) : c ≠ '-' := by
  intro hc
  rw [hc] at h
  exact absurd h (by decide)

theorem ws_of_eq_space {c : Char} (h : c = ' ') : isRustWhitespace c = true := by
  rw [h]; decide

/-! ## Generic list lemmas: `dropWhile`, trims, `noTwoConsec`, `map` -/

theorem head?_dropWhile_not (p : Char → Bool) (l : Str) :
    ∀ c, (l.dropWhile p).head? = some c → p c = false := by
  induction l with
  | nil => intro c h; simp [List.dropWhile] at h
  | cons a t ih =>
    intro c h
    rw [List.dropWhile_cons] at h
    by_cases hp : p a
    · rw [if_pos hp] at h
      exact ih c h
    · rw [if_neg hp] at h
      simp only [List.head?_cons, Option.some.injEq] at h
      subst h
      exact Bool.not_eq_true _ ▸ hp

theorem dropWhile_eq_self_of_head (p : Char → Bool) (l : Str)
    (h : ∀ c, l.head? = some c → p c = false) : l.dropWhile p = l := by
  cases l with
  | nil => rfl
  | cons a t =>
    rw [List.dropWhile_cons, if_neg]
    have := h a rfl
    simp [this]

theorem mem_of_head? {l : Str} {c : Char} (h : l.head? = some c) : c ∈ l := by
  cases l with
  | nil => simp at h
  | cons a t =>
    simp only [List.head?_cons, Option.some.injEq] at h
    subst h
    exact List.mem_cons_self _ _

theorem mem_of_getLast? {l : Str} {c : Char} (h : l.getLast? = some c) : c ∈ l := by
  rw [← List.head?_reverse] at h
  exact (List.mem_reverse).mp (mem_of_head? h)

theorem trimRightBy_decomp (p : Char → Bool) (m : Str) :
    m = trimRightBy p m ++ (m.reverse.takeWhile p).reverse := by
  unfold trimRightBy
  conv_lhs => rw [← List.reverse_reverse m, ← List.takeWhile_append_dropWhile p m.reverse]
  rw [List.reverse_append]

theorem trimRightBy_head (p : Char → Bool) (m : Str) {c : Char}
    (h : (trimRightBy p m).head? = some c) : m.head? = some c := by
  conv_lhs => rw [trimRightBy_decomp p m]
  rw [List.head?_append, h]
  rfl

theorem trimBy_head (p : Char → Bool) (l : Str) {c : Char}
    (h : (trimBy p l).head? = some c) : p c = false := by
  unfold trimBy at h
  have h2 := trimRightBy_head p (trimLeftBy p l) h
  unfold trimLeftBy at h2
  exact head?_dropWhile_not p l c h2

theorem trimBy_getLast (p : Char → Bool) (l : Str) {c : Char}
    (h : (trimBy p l).getLast? = some c) : p c = false := by
  unfold trimBy trimRightBy at h
  rw [List.getLast?_reverse] at h
  exact head?_dropWhile_not p _ c h

theorem trimBy_eq_self (p : Char → Bool) (l : Str)
    (h1 : ∀ c, l.head? = some c → p c = false)
    (h2 : ∀ c, l.getLast? = some c → p c = false) : trimBy p l = l := by
  unfold trimBy trimLeftBy trimRightBy
  rw [dropWhile_eq_self_of_head p l h1]
  rw [dropWhile_eq_self_of_head p l.reverse]
  · exact List.reverse_reverse l
  · intro c hc
    rw [List.head?_reverse] at hc
    exact h2 c hc

theorem trimBy_sublist (p : Char → Bool) (l : Str) : (trimBy p l).Sublist l := by
  unfold trimBy trimLeftBy trimRightBy
  have h1 : (List.dropWhile p (List.dropWhile p l).reverse).Sublist
      (List.dropWhile p l).reverse := List.dropWhile_sublist _
  have h2 := h1.reverse
  rw [List.reverse_reverse] at h2
  exact h2.trans (List.dropWhile_sublist _)

theorem mem_of_mem_trimBy {p : Char → Bool} {l : Str} {c : Char}
    (h : c ∈ trimBy p l) : c ∈ l := (trimBy_sublist p l).mem h

theorem noTwoConsec_cons_tail {p : Char → Bool} {a : Char} {t : Str}
    (h : noTwoConsec p (a :: t) = true) : noTwoConsec p t = true := by
  cases t with
  | nil => rfl
  | cons b t' =>
    unfold noTwoConsec at h
    simp only [Bool.and_eq_true] at h
    exact h.2

theorem noTwoConsec_append_right (p : Char → Bool) (l m : Str)
    (h : noTwoConsec p (l ++ m) = true) : noTwoConsec p m = true := by
  induction l with
  | nil => exact h
  | cons a l' ih => exact ih (noTwoConsec_cons_tail h)

theorem noTwoConsec_append_left (p : Char → Bool) (l m : Str)
    (h : noTwoConsec p (l ++ m) = true) : noTwoConsec p l = true := by
  induction l with
  | nil => rfl
  | cons a l' ih =>
    cases l' with
    | nil => rfl
    | cons b l'' =>
      simp only [List.cons_append, noTwoConsec, Bool.and_eq_true] at h ⊢
      exact ⟨h.1, ih h.2⟩

theorem noTwoConsec_of_all_not (p : Char → Bool) (l : Str)
    (h : ∀ c ∈ l, p c = false) : noTwoConsec p l = true := by
  induction l with
  | nil => rfl
  | cons a t ih =>
    cases t with
    | nil => rfl
    | cons b t' =>
      unfold noTwoConsec
      simp only [Bool.and_eq_true]
      constructor
      · have := h a (List.mem_cons_self _ _)
        simp [this]
      · exact ih (fun c hc => h c (List.mem_cons_of_mem _ hc))

theorem noTwoConsec_trimBy (p q : Char → Bool) (l : Str)
    (h : noTwoConsec p l = true) : noTwoConsec p (trimBy q l) = true := by
  unfold trimBy trimLeftBy
  have hdrop : noTwoConsec p (List.dropWhile q l) = true := by
    have := List.takeWhile_append_dropWhile q l
    exact noTwoConsec_append_right p (List.takeWhile q l) _ (by rw [this]; exact h)
  have hdecomp := trimRightBy_decomp q (List.dropWhile q l)
  exact noTwoConsec_append_left p _ _ (by rw [← hdecomp]; exact hdrop)

theorem map_eq_self_of {f : Char → Char} {l : Str} (h : ∀ c ∈ l, f c = c) :
    l.map f = l := by
  induction l with
  | nil => rfl
  | cons a t ih =>
    rw [List.map_cons, h a (List.mem_cons_self _ _), ih (fun c hc => h c (List.mem_cons_of_mem _ hc))]

theorem isDash_eq_false_iff {c : Char} : isDash c = false ↔ c ≠ '-' := by
  simp [isDash]

/-! ## Facts about the collapsing passes and the cleaning loop -/

theorem collapseWsAux_ws_mem :
    ∀ (l : Str) (b : Bool) (c : Char), c ∈ collapseWsAux b l →
      isRustWhitespace c = true → c = ' ' := by
  intro l
  induction l with
  | nil => intro b c hc; simp [collapseWsAux] at hc
  | cons a t ih =>
    intro b c hc hws
    unfold collapseWsAux at hc
    by_cases ha : isRustWhitespace a
    · rw [if_pos ha] at hc
      by_cases hb : b
      · subst hb
        rw [if_pos rfl] at hc
        exact ih true c hc hws
      · simp only [Bool.not_eq_true] at hb
        subst hb
        rw [if_neg (by simp)] at hc
        rcases List.mem_cons.mp hc with h | h
        · exact h
        · exact ih true c h hws
    · rw [if_neg ha] at hc
      rcases List.mem_cons.mp hc with h | h
      · subst h; exact absurd hws (by simp [ha])
      · exact ih false c h hws

theorem collapseWsAux_eq_self :
    ∀ (l : Str) (b : Bool),
      (∀ c ∈ l, isRustWhitespace c = true → c = ' ') →
      noTwoConsec isRustWhitespace l = true →
      (b = true → ∀ c, l.head? = some c → isRustWhitespace c = false) →
      collapseWsAux b l = l := by
  intro l
  induction l with
  | nil => intro b _ _ _; rfl
  | cons a t ih =>
    intro b hall hcons hhead
    unfold collapseWsAux
    by_cases ha : isRustWhitespace a
    · have hb : b = false := by
        cases b with
        | false => rfl
        | true => exact absurd ha (by simp [hhead rfl a rfl])
      subst hb
      rw [if_pos ha, if_neg (by simp)]
      have haspace : a = ' ' := hall a (List.mem_cons_self _ _) ha
      rw [← haspace]
      congr 1
      apply ih true (fun c hc => hall c (List.mem_cons_of_mem _ hc))
        (noTwoConsec_cons_tail hcons)
      intro _ c hc
      cases t with
      | nil => simp at hc
      | cons d t' =>
        simp only [List.head?_cons, Option.some.injEq] at hc
        unfold noTwoConsec at hcons
        simp only [Bool.and_eq_true, Bool.not_eq_true'] at hcons
        rcases hcons with ⟨h1, _⟩
        rw [← hc]
        rw [ha] at h1
        simpa using h1
    · rw [if_neg ha]
      congr 1
      apply ih false (fun c hc => hall c (List.mem_cons_of_mem _ hc))
        (noTwoConsec_cons_tail hcons)
      intro h; exact absurd h (by simp)

theorem collapseBS_eq_self {l : Str} (h : ∀ c ∈ l, c ≠ '\\') :
    collapseBSAux .normal l = l := by
  induction l with
  | nil => rfl
  | cons a t ih =>
    unfold collapseBSAux
    rw [if_neg (h a (List.mem_cons_self _ _))]
    congr 1
    exact ih (fun c hc => h c (List.mem_cons_of_mem _ hc))

theorem cleanedAux_mem :
    ∀ (l : Str) (b : Bool) (x : Char), x ∈ cleanedAux b l →
      x = '-' ∨ (x ∈ l ∧ isAsciiPunct x = false) := by
  intro l
  induction l with
  | nil => intro b x hx; simp [cleanedAux] at hx
  | cons a t ih =>
    intro b x hx
    unfold cleanedAux at hx
    by_cases ha : a = '-'
    · rw [if_pos ha] at hx
      by_cases hb : b
      · subst hb
        rw [if_pos rfl] at hx
        rcases ih true x hx with h | ⟨h1, h2⟩
        · exact Or.inl h
        · exact Or.inr ⟨List.mem_cons_of_mem _ h1, h2⟩
      · simp only [Bool.not_eq_true] at hb
        subst hb
        rw [if_neg (by simp)] at hx
        rcases List.mem_cons.mp hx with h | h
        · exact Or.inl h
        · rcases ih true x h with h' | ⟨h1, h2⟩
          · exact Or.inl h'
          · exact Or.inr ⟨List.mem_cons_of_mem _ h1, h2⟩
    · rw [if_neg ha] at hx
      by_cases hp : isAsciiPunct a
      · rw [if_pos hp] at hx
        rcases ih b x hx with h | ⟨h1, h2⟩
        · exact Or.inl h
        · exact Or.inr ⟨List.mem_cons_of_mem _ h1, h2⟩
      · rw [if_neg hp] at hx
        rcases List.mem_cons.mp hx with h | h
        · subst h
          exact Or.inr ⟨List.mem_cons_self _ _, by simpa using hp⟩
        · rcases ih false x h with h' | ⟨h1, h2⟩
          · exact Or.inl h'
          · exact Or.inr ⟨List.mem_cons_of_mem _ h1, h2⟩

theorem cleanedAux_true_head :
    ∀ (l : Str) (c : Char), (cleanedAux true l).head? = some c → c ≠ '-' := by
  intro l
  induction l with
  | nil => intro c h; simp [cleanedAux] at h
  | cons a t ih =>
    intro c h
    unfold cleanedAux at h
    by_cases ha : a = '-'
    · rw [if_pos ha, if_pos rfl] at h
      exact ih c h
    · rw [if_neg ha] at h
      by_cases hp : isAsciiPunct a
      · rw [if_pos hp] at h
        exact ih c h
      · rw [if_neg hp] at h
        simp only [List.head?_cons, Option.some.injEq] at h
        subst h
        exact ha

theorem noTwoConsec_cons_of_head {p : Char → Bool} {a : Char} {X : Str}
    (hh : ∀ d, X.head? = some d → ¬(p a = true ∧ p d = true))
    (hX : noTwoConsec p X = true) : noTwoConsec p (a :: X) = true := by
  cases X with
  | nil => rfl
  | cons d t =>
    unfold noTwoConsec
    simp only [Bool.and_eq_true]
    refine ⟨?_, hX⟩
    have := hh d rfl
    cases hpa : p a <;> cases hpd : p d <;> simp_all

theorem cleanedAux_noTwoConsec :
    ∀ (l : Str) (b : Bool), noTwoConsec isDash (cleanedAux b l) = true := by
  intro l
  induction l with
  | nil => intro b; rfl
  | cons a t ih =>
    intro b
    unfold cleanedAux
    by_cases ha : a = '-'
    · rw [if_pos ha]
      by_cases hb : b
      · subst hb; rw [if_pos rfl]; exact ih true
      · simp only [Bool.not_eq_true] at hb
        subst hb
        rw [if_neg (by simp)]
        apply noTwoConsec_cons_of_head _ (ih true)
        intro d hd hpd
        exact cleanedAux_true_head t d hd (by simpa [isDash] using hpd.2)
    · rw [if_neg ha]
      by_cases hp : isAsciiPunct a
      · rw [if_pos hp]; exact ih b
      · rw [if_neg hp]
        apply noTwoConsec_cons_of_head _ (ih false)
        intro d _ hpd
        exact ha (by simpa [isDash] using hpd.1)

theorem cleanedAux_eq_self :
    ∀ (l : Str) (b : Bool),
      (∀ x ∈ l, isAsciiPunct x = true → x = '-') →
      noTwoConsec isDash l = true →
      (b = true → ∀ c, l.head? = some c → c ≠ '-') →
      cleanedAux b l = l := by
  intro l
  induction l with
  | nil => intro b _ _ _; rfl
  | cons a t ih =>
    intro b hall hcons hhead
    unfold cleanedAux
    by_cases ha : a = '-'
    · have hb : b = false := by
        cases b with
        | false => rfl
        | true => exact absurd ha (hhead rfl a rfl)
      subst hb
      rw [if_pos ha, if_neg (by simp), ha]
      congr 1
      apply ih true (fun x hx => hall x (List.mem_cons_of_mem _ hx))
        (noTwoConsec_cons_tail hcons)
      intro _ c hc
      cases t with
      | nil => simp at hc
      | cons d t' =>
        simp only [List.head?_cons, Option.some.injEq] at hc
        unfold noTwoConsec at hcons
        simp only [Bool.and_eq_true, Bool.not_eq_true'] at hcons
        rcases hcons with ⟨h1, _⟩
        rw [← hc]
        rw [show isDash a = true by simp [isDash, ha]] at h1
        exact isDash_eq_false_iff.mp (by simpa using h1)
    · by_cases hp : isAsciiPunct a
      · exact absurd (hall a (List.mem_cons_self _ _) hp) ha
      · rw [if_neg ha, if_neg hp]
        congr 1
        apply ih false (fun x hx => hall x (List.mem_cons_of_mem _ hx))
          (noTwoConsec_cons_tail hcons)
        intro h; exact absurd h (by simp)

/-! ## Shape of `canonTail` output -/

theorem canonTail_mem_cases (s : Str) :
    ∀ c ∈ canonTail s,
      c = '-' ∨ (∃ e ∈ s, c = asciiToLower e ∧ c ≠ ' ' ∧ isAsciiPunct c = false) := by
  intro c hc
  unfold canonTail trimDash at hc
  have h1 := mem_of_mem_trimBy hc
  rcases cleanedAux_mem _ false c h1 with h | ⟨h2, hp⟩
  · exact Or.inl h
  · unfold mapSpaceToDash mapLower at h2
    rcases List.mem_map.mp h2 with ⟨d, hd, hdc⟩
    rcases List.mem_map.mp hd with ⟨e, he, hed⟩
    by_cases hsp : d = ' '
    · rw [if_pos hsp] at hdc
      exact Or.inl hdc.symm
    · rw [if_neg hsp] at hdc
      subst hdc
      exact Or.inr ⟨e, he, hed.symm, hsp, hp⟩

theorem canonTail_no_space (s : Str) : ∀ c ∈ canonTail s, c ≠ ' ' := by
  intro c hc
  rcases canonTail_mem_cases s c hc with h | ⟨_, _, _, h, _⟩
  · rw [h]; decide
  · exact h

theorem canonTail_lowered (s : Str) : ∀ c ∈ canonTail s, asciiToLower c = c := by
  intro c hc
  rcases canonTail_mem_cases s c hc with h | ⟨e, _, he, _, _⟩
  · rw [h]; decide
  · rw [he]; exact asciiToLower_idem e

theorem canonTail_punct_dash (s : Str) :
    ∀ c ∈ canonTail s, isAsciiPunct c = true → c = '-' := by
  intro c hc hp
  rcases canonTail_mem_cases s c hc with h | ⟨_, _, _, _, h⟩
  · exact h
  · rw [h] at hp; exact absurd hp (by simp)

theorem canonTail_no_ws (s : Str)
    (hs : ∀ c ∈ s, isRustWhitespace c = true → c = ' ') :
    ∀ c ∈ canonTail s, isRustWhitespace c = false := by
  intro c hc
  rcases canonTail_mem_cases s c hc with h | ⟨e, he, hce, hcs, _⟩
  · rw [h]; decide
  · cases hw : isRustWhitespace c with
    | false => rfl
    | true =>
      rw [hce, ws_asciiToLower e] at hw
      have he' := hs e he hw
      rw [he'] at hce
      exact absurd (by simpa using hce) hcs

theorem canonTail_head_ne_dash (s : Str) :
    ∀ c, (canonTail s).head? = some c → c ≠ '-' := by
  intro c hc
  unfold canonTail trimDash at hc
  exact isDash_eq_false_iff.mp (trimBy_head isDash _ hc)

theorem canonTail_getLast_ne_dash (s : Str) :
    ∀ c, (canonTail s).getLast? = some c → c ≠ '-' := by
  intro c hc
  unfold canonTail trimDash at hc
  exact isDash_eq_false_iff.mp (trimBy_getLast isDash _ hc)

theorem canonTail_noTwoConsec (s : Str) : noTwoConsec isDash (canonTail s) = true := by
  unfold canonTail trimDash
  exact noTwoConsec_trimBy isDash isDash _ (cleanedAux_noTwoConsec _ false)

/-! ## Inversion of the canonicalization entry points -/

theorem canonicalize_eq_ok {x k : Str} (h : canonicalize x = .ok k) :
    k = canonTail (rustTrim (trimBy isAsciiPunct (collapseWs (rustTrim x)))) ∧ k ≠ [] := by
  unfold canonicalize at h
  split_ifs at h with h1 h2 h3
  injection h with h4
  subst h4
  exact ⟨rfl, h3⟩

theorem canonicalKeyNew_eq_ok {x k : Str} (h : canonicalKeyNew x = .ok k) :
    k = canonTail (rustTrim (trimBy isAsciiPunct (collapseBS (rustTrim x)))) ∧ k ≠ [] := by
  unfold canonicalKeyNew at h
  by_cases h1 : normalize_canonical_text x = []
  · rw [if_pos h1] at h
    exact absurd h (by simp)
  · rw [if_neg h1] at h
    injection h with h4
    subst h4
    refine ⟨?_, h1⟩
    unfold normalize_canonical_text at h1 ⊢
    by_cases h5 : rustTrim x = []
    · rw [if_pos h5] at h1
      exact absurd rfl h1
    · rw [if_neg h5] at h1 ⊢
      by_cases h6 : rustTrim (trimBy isAsciiPunct (collapseBS (rustTrim x))) = []
      · rw [if_pos h6] at h1
        exact absurd rfl h1
      · rw [if_neg h6]

theorem stripped_ws_space (x : Str) :
    ∀ c ∈ rustTrim (trimBy isAsciiPunct (collapseWs (rustTrim x))),
      isRustWhitespace c = true → c = ' ' := by
  intro c hc hw
  unfold rustTrim at hc
  have h1 := mem_of_mem_trimBy (mem_of_mem_trimBy hc)
  unfold collapseWs at h1
  exact collapseWsAux_ws_mem _ false c h1 hw

/-- C2: if `canonicalize` succeeds on `x` with result `k`, then applying it
to `k` succeeds and returns `k` itself (idempotence). -/
theorem canonicalize_idempotent :
    ∀ (x k : Str), canonicalize x = .ok k → canonicalize k = .ok k := by
  intro x k h
  obtain ⟨hk, hne⟩ := canonicalize_eq_ok h
  have hws := stripped_ws_space x
  have hnows : ∀ c ∈ k, isRustWhitespace c = false := by
    rw [hk]; exact canonTail_no_ws _ hws
  have hnospace : ∀ c ∈ k, c ≠ ' ' := by rw [hk]; exact canonTail_no_space _
  have hlow : ∀ c ∈ k, asciiToLower c = c := by rw [hk]; exact canonTail_lowered _
  have hpd : ∀ c ∈ k, isAsciiPunct c = true → c = '-' := by
    rw [hk]; exact canonTail_punct_dash _
  have hhead : ∀ c, k.head? = some c → c ≠ '-' := by
    rw [hk]; exact canonTail_head_ne_dash _
  have hlast : ∀ c, k.getLast? = some c → c ≠ '-' := by
    rw [hk]; exact canonTail_getLast_ne_dash _
  have hcons : noTwoConsec isDash k = true := by rw [hk]; exact canonTail_noTwoConsec _
  have htrim : rustTrim k = k := by
    unfold rustTrim
    exact trimBy_eq_self _ _ (fun c hc => hnows c (mem_of_head? hc))
      (fun c hc => hnows c (mem_of_getLast? hc))
  have hcoll : collapseWs k = k := by
    unfold collapseWs
    exact collapseWsAux_eq_self k false
      (fun c hc hw => absurd hw (by simp [hnows c hc]))
      (noTwoConsec_of_all_not _ _ hnows)
      (fun hb => absurd hb (by simp))
  have hpunct : trimBy isAsciiPunct k = k := by
    apply trimBy_eq_self
    · intro c hc
      cases hp : isAsciiPunct c with
      | false => rfl
      | true => exact absurd (hpd c (mem_of_head? hc) hp) (hhead c hc)
    · intro c hc
      cases hp : isAsciiPunct c with
      | false => rfl
      | true => exact absurd (hpd c (mem_of_getLast? hc) hp) (hlast c hc)
  have hlow2 : mapLower k = k := by unfold mapLower; exact map_eq_self_of hlow
  have hrep : mapSpaceToDash k = k := by
    unfold mapSpaceToDash
    exact map_eq_self_of (fun c hc => if_neg (hnospace c hc))
  have hclean : cleanedAux false k = k :=
    cleanedAux_eq_self k false hpd hcons (fun hb => absurd hb (by simp))
  have htd : trimDash k = k := by
    unfold trimDash
    apply trimBy_eq_self
    · intro c hc; exact isDash_eq_false_iff.mpr (hhead c hc)
    · intro c hc; exact isDash_eq_false_iff.mpr (hlast c hc)
  unfold canonicalize canonTail
  rw [htrim, hcoll, hpunct, htrim, hlow2, hrep, hclean, htd]
  rw [if_neg hne, if_neg hne, if_neg hne]

theorem noTwoConsec_map {p q : Char → Bool} {h : Char → Char} {l : Str}
    (hpq : ∀ c ∈ l, p (h c) = true → q c = true)
    (hq : noTwoConsec q l = true) : noTwoConsec p (l.map h) = true := by
  induction l with
  | nil => rfl
  | cons a t ih =>
    cases t with
    | nil => rfl
    | cons b t' =>
      simp only [List.map_cons, noTwoConsec, Bool.and_eq_true, Bool.not_eq_true'] at hq ⊢
      refine ⟨?_, ih (fun c hc => hpq c (List.mem_cons_of_mem _ hc)) hq.2⟩
      cases hpa : p (h a) with
      | false => simp
      | true =>
        cases hpb : p (h b) with
        | false => simp
        | true =>
          have ha := hpq a (List.mem_cons_self _ _) hpa
          have hb := hpq b (List.mem_cons_of_mem _ (List.mem_cons_self _ _)) hpb
          rw [ha, hb] at hq
          exact absurd hq.1 (by simp)

set_option maxHeartbeats 1000000 in
/-- C3 (amended): whenever either normalizer succeeds, the key has no leading
or trailing `-` and no two consecutive `-`; the `util::canonical::canonicalize`
key contains no whitespace at all, while the `CanonicalKey::new` key is only
guaranteed to contain no space character (its mis-quoted whitespace regex
`r"\\s+"` lets other whitespace, e.g. a tab, survive internally). -/
theorem canonical_output_shape :
    (∀ x k, canonicalize x = .ok k →
      (∀ c, k.head? = some c → c ≠ '-') ∧ (∀ c, k.getLast? = some c → c ≠ '-') ∧
      noTwoConsec isDash k = true ∧ (∀ c ∈ k, isRustWhitespace c = false)) ∧
    (∀ x k, canonicalKeyNew x = .ok k →
      (∀ c, k.head? = some c → c ≠ '-') ∧ (∀ c, k.getLast? = some c → c ≠ '-') ∧
      noTwoConsec isDash k = true ∧ (∀ c ∈ k, c ≠ ' ')) := by
  constructor
  · intro x k h
    obtain ⟨hk, _⟩ := canonicalize_eq_ok h
    subst hk
    exact ⟨canonTail_head_ne_dash _, canonTail_getLast_ne_dash _, canonTail_noTwoConsec _,
      canonTail_no_ws _ (stripped_ws_space x)⟩
  · intro x k h
    obtain ⟨hk, _⟩ := canonicalKeyNew_eq_ok h
    subst hk
    exact ⟨canonTail_head_ne_dash _, canonTail_getLast_ne_dash _, canonTail_noTwoConsec _,
      canonTail_no_space _⟩

/-- Witness for the amended C3: both branches applied at concrete inputs
(`"**Hello, World!!"` and `"a\t b"`-like data). -/
theorem canonical_output_shape_witness :
    noTwoConsec isDash ['h', 'e', 'l', 'l', 'o', '-', 'w', 'o', 'r', 'l', 'd'] = true ∧
    ('a' : Char) ≠ ' ' :=
  ⟨(canonical_output_shape.1
      ['*', '*', 'H', 'e', 'l', 'l', 'o', ',', ' ', 'W', 'o', 'r', 'l', 'd', '!', '!']
      ['h', 'e', 'l', 'l', 'o', '-', 'w', 'o', 'r', 'l', 'd'] (by decide)).2.2.1,
   (canonical_output_shape.2 ['a', '\t', 'b'] ['a', '\t', 'b'] (by decide)).2.2.2 'a'
      (by decide)⟩

/-- Counterexample to C3 as stated: `CanonicalKey::new` succeeds on `"a\tb"`
returning `"a\tb"`, which contains the internal whitespace character `'\t'`
(its regex `r"\\s+"` does not match the tab). -/
theorem canonical_key_internal_ws_counterexample :
    canonicalKeyNew ['a', '\t', 'b'] = .ok ['a', '\t', 'b'] ∧
    '\t' ∈ (['a', '\t', 'b'] : Str) ∧
    (['a', '\t', 'b'] : Str).head? ≠ some '\t' ∧
    (['a', '\t', 'b'] : Str).getLast? ≠ some '\t' ∧
    isRustWhitespace '\t' = true := by decide

/-- Counterexample to C4 as stated: on `"a\tb"` the two canonicalization
implementations succeed with different keys. -/
theorem canonicalize_vs_key_counterexample :
    canonicalize ['a', '\t', 'b'] = .ok ['a', '-', 'b'] ∧
    canonicalKeyNew ['a', '\t', 'b'] = .ok ['a', '\t', 'b'] ∧
    (['a', '-', 'b'] : Str) ≠ (['a', '\t', 'b'] : Str) := by decide

theorem punct_not_ws {c : Char} (h : isAsciiPunct c = true) : isRustWhitespace c = false := by
  simp only [isAsciiPunct, decide_eq_true_eq] at h
  simp only [isRustWhitespace, decide_eq_false_iff_not]
  omega

theorem collapseEndWs_cons (b : Bool) (a : Char) (t : Str) :
    collapseEndWs b (a :: t) = collapseEndWs (isRustWhitespace a) t := by
  cases t with
  | nil => simp [collapseEndWs]
  | cons d t' =>
    unfold collapseEndWs
    rw [List.getLast?_cons_cons]
    cases hg : (d :: t').getLast? with
    | none => simp at hg
    | some e => rfl

theorem collapseEndWs_reverse (l : Str) : collapseEndWs false l.reverse = headIsWs l := by
  unfold collapseEndWs headIsWs
  rw [List.getLast?_reverse]

theorem collapseWsAux_append_singleton (c : Char) :
    ∀ (l : Str) (b : Bool),
      collapseWsAux b (l ++ [c]) =
        collapseWsAux b l ++
          (if isRustWhitespace c then (if collapseEndWs b l then [] else [' ']) else [c]) := by
  intro l
  induction l with
  | nil =>
    intro b
    by_cases hc : isRustWhitespace c <;> by_cases hb : b = true <;>
      simp [collapseWsAux, collapseEndWs, hc, hb]
  | cons a t ih =>
    intro b
    rw [List.cons_append]
    unfold collapseWsAux
    rw [collapseEndWs_cons]
    by_cases ha : isRustWhitespace a
    · rw [if_pos ha, if_pos ha, ha]
      cases b with
      | true => rw [if_pos rfl, if_pos rfl, ih true]
      | false =>
        rw [if_neg (by simp), if_neg (by simp), ih true, List.cons_append]
    · rw [if_neg ha, if_neg ha, ih false, List.cons_append]
      simp only [Bool.not_eq_true] at ha
      rw [ha]

theorem collapseWsAux_state (l : Str) :
    (headIsWs l = true → collapseWsAux false l = ' ' :: collapseWsAux true l) ∧
    (headIsWs l = false → collapseWsAux false l = collapseWsAux true l) := by
  cases l with
  | nil =>
    refine ⟨fun h => ?_, fun _ => rfl⟩
    simp [headIsWs] at h
  | cons a t =>
    unfold headIsWs
    simp only [List.head?_cons]
    constructor
    · intro h
      simp [collapseWsAux, h]
    · intro h
      simp [collapseWsAux, h]

theorem collapseWsAux_true_dropWhile (l : Str) :
    collapseWsAux true l = collapseWsAux false (l.dropWhile isRustWhitespace) := by
  induction l with
  | nil => rfl
  | cons a t ih =>
    rw [List.dropWhile_cons]
    by_cases ha : isRustWhitespace a
    · rw [if_pos ha]
      have h1 : collapseWsAux true (a :: t) = collapseWsAux true t := by
        simp [collapseWsAux, ha]
      rw [h1]
      exact ih
    · rw [if_neg ha]
      simp [collapseWsAux, ha]

theorem collapseWs_reverse (l : Str) : collapseWs l.reverse = (collapseWs l).reverse := by
  induction l with
  | nil => rfl
  | cons c t ih =>
    rw [List.reverse_cons]
    unfold collapseWs at ih ⊢
    rw [collapseWsAux_append_singleton c t.reverse false, ih, collapseEndWs_reverse]
    by_cases hc : isRustWhitespace c
    · rw [if_pos hc]
      have h1 : collapseWsAux false (c :: t) = ' ' :: collapseWsAux true t := by
        simp [collapseWsAux, hc]
      rw [h1, List.reverse_cons]
      by_cases ht : headIsWs t
      · rw [if_pos ht, (collapseWsAux_state t).1 ht, List.reverse_cons, List.append_nil]
      · rw [if_neg ht, (collapseWsAux_state t).2 (by simpa using ht)]
    · rw [if_neg hc]
      have h1 : collapseWsAux false (c :: t) = c :: collapseWsAux false t := by
        simp [collapseWsAux, hc]
      rw [h1, List.reverse_cons]

theorem dropWhile_punct_collapseWs (l : Str) :
    (collapseWs l).dropWhile isAsciiPunct = collapseWs (l.dropWhile isAsciiPunct) := by
  induction l with
  | nil => rfl
  | cons a t ih =>
    by_cases ha : isAsciiPunct a
    · have haw : isRustWhitespace a = false := punct_not_ws ha
      have h1 : collapseWs (a :: t) = a :: collapseWsAux false t := by
        simp [collapseWs, collapseWsAux, haw]
      rw [h1, List.dropWhile_cons, if_pos ha, List.dropWhile_cons, if_pos ha]
      exact ih
    · by_cases haw : isRustWhitespace a
      · have h1 : collapseWs (a :: t) = ' ' :: collapseWsAux true t := by
          simp [collapseWs, collapseWsAux, haw]
        rw [h1, List.dropWhile_cons, if_neg (by decide : ¬(isAsciiPunct ' ' = true)),
          List.dropWhile_cons, if_neg ha, h1]
      · have h1 : collapseWs (a :: t) = a :: collapseWsAux false t := by
          simp [collapseWs, collapseWsAux, haw]
        rw [h1, List.dropWhile_cons, if_neg ha, List.dropWhile_cons, if_neg ha, h1]

theorem trimRightBy_punct_collapseWs (l : Str) :
    trimRightBy isAsciiPunct (collapseWs l) = collapseWs (trimRightBy isAsciiPunct l) := by
  unfold trimRightBy
  rw [← collapseWs_reverse, dropWhile_punct_collapseWs, ← collapseWs_reverse]

theorem collapseWs_head_not_ws (m : Str)
    (h : ∀ c, m.head? = some c → isRustWhitespace c = false) :
    ∀ c, (collapseWs m).head? = some c → isRustWhitespace c = false := by
  intro c hc
  cases m with
  | nil => simp [collapseWs, collapseWsAux] at hc
  | cons a t =>
    have ha := h a rfl
    have h1 : collapseWs (a :: t) = a :: collapseWsAux false t := by
      simp [collapseWs, collapseWsAux, ha]
    rw [h1] at hc
    simp only [List.head?_cons, Option.some.injEq] at hc
    subst hc
    exact ha

theorem dropWhile_ws_collapseWs (l : Str) :
    (collapseWs l).dropWhile isRustWhitespace = collapseWs (l.dropWhile isRustWhitespace) := by
  cases l with
  | nil => rfl
  | cons a t =>
    by_cases ha : isRustWhitespace a
    · have h1 : collapseWs (a :: t) = ' ' :: collapseWsAux true t := by
        simp [collapseWs, collapseWsAux, ha]
      rw [h1, List.dropWhile_cons, if_pos (by decide : isRustWhitespace ' ' = true),
        List.dropWhile_cons, if_pos ha]
      rw [collapseWsAux_true_dropWhile t]
      show (collapseWs (t.dropWhile isRustWhitespace)).dropWhile isRustWhitespace
          = collapseWs (t.dropWhile isRustWhitespace)
      exact dropWhile_eq_self_of_head _ _
        (collapseWs_head_not_ws _ (head?_dropWhile_not isRustWhitespace t))
    · have h1 : collapseWs (a :: t) = a :: collapseWsAux false t := by
        simp [collapseWs, collapseWsAux, ha]
      rw [h1, List.dropWhile_cons, if_neg ha, List.dropWhile_cons, if_neg ha, h1]

theorem trimRightBy_ws_collapseWs (l : Str) :
    trimRightBy isRustWhitespace (collapseWs l) =
      collapseWs (trimRightBy isRustWhitespace l) := by
  unfold trimRightBy
  rw [← collapseWs_reverse, dropWhile_ws_collapseWs, ← collapseWs_reverse]

theorem strip_collapse_comm (l : Str) :
    rustTrim (trimBy isAsciiPunct (collapseWs l)) =
      collapseWs (rustTrim (trimBy isAsciiPunct l)) := by
  unfold rustTrim trimBy trimLeftBy
  rw [dropWhile_punct_collapseWs, trimRightBy_punct_collapseWs,
    dropWhile_ws_collapseWs, trimRightBy_ws_collapseWs]

theorem collapseWs_eq_nil_iff (l : Str) : collapseWs l = [] ↔ l = [] := by
  cases l with
  | nil => exact ⟨fun _ => rfl, fun _ => rfl⟩
  | cons a t =>
    simp only [collapseWs, collapseWsAux]
    by_cases ha : isRustWhitespace a
    · simp [ha]
    · simp [ha]

theorem cleanedAux_dash_true (X : Str) :
    cleanedAux true ('-' :: X) = cleanedAux true X := by
  simp [cleanedAux]

theorem cleanedAux_dash_false (X : Str) :
    cleanedAux false ('-' :: X) = '-' :: cleanedAux true X := by
  simp [cleanedAux]

theorem cleanedAux_punct_cons (d : Bool) {c : Char} (X : Str) (h1 : c ≠ '-')
    (h2 : isAsciiPunct c = true) : cleanedAux d (c :: X) = cleanedAux d X := by
  simp [cleanedAux, h1, h2]

theorem cleanedAux_other_cons (d : Bool) {c : Char} (X : Str) (h1 : c ≠ '-')
    (h2 : isAsciiPunct c = false) : cleanedAux d (c :: X) = c :: cleanedAux false X := by
  simp [cleanedAux, h1, h2]

theorem cleanedAux_collapse_sync :
    ∀ l : Str, (∀ c ∈ l, isRustWhitespace c = true → c = ' ') →
      ((∀ d : Bool, cleanedAux d ((collapseWsAux false l).map canonCharMap) =
          cleanedAux d (l.map canonCharMap)) ∧
        cleanedAux true ((collapseWsAux true l).map canonCharMap) =
          cleanedAux true (l.map canonCharMap)) := by
  intro l
  induction l with
  | nil => exact fun _ => ⟨fun _ => rfl, rfl⟩
  | cons a t ih =>
    intro hws
    have iht := ih (fun c hc => hws c (List.mem_cons_of_mem _ hc))
    have hsp : isRustWhitespace ' ' = true := by decide
    by_cases ha : isRustWhitespace a
    · have haSpace : a = ' ' := hws a (List.mem_cons_self _ _) ha
      subst haSpace
      have h1 : collapseWsAux false (' ' :: t) = ' ' :: collapseWsAux true t := by
        simp [collapseWsAux, hsp]
      have h2 : collapseWsAux true (' ' :: t) = collapseWsAux true t := by
        simp [collapseWsAux, hsp]
      have hmap : canonCharMap ' ' = '-' := rfl
      constructor
      · intro d
        rw [h1, List.map_cons, List.map_cons, hmap]
        cases d with
        | true => rw [cleanedAux_dash_true, cleanedAux_dash_true, iht.2]
        | false => rw [cleanedAux_dash_false, cleanedAux_dash_false, iht.2]
      · rw [h2, List.map_cons, hmap, cleanedAux_dash_true]
        exact iht.2
    · have h1 : collapseWsAux false (a :: t) = a :: collapseWsAux false t := by
        simp [collapseWsAux, ha]
      have h2 : collapseWsAux true (a :: t) = a :: collapseWsAux false t := by
        simp [collapseWsAux, ha]
      constructor
      · intro d
        rw [h1, List.map_cons, List.map_cons]
        by_cases hdash : canonCharMap a = '-'
        · rw [hdash]
          cases d with
          | true => rw [cleanedAux_dash_true, cleanedAux_dash_true, iht.1 true]
          | false => rw [cleanedAux_dash_false, cleanedAux_dash_false, iht.1 true]
        · by_cases hpunct : isAsciiPunct (canonCharMap a)
          · rw [cleanedAux_punct_cons d _ hdash hpunct, cleanedAux_punct_cons d _ hdash hpunct]
            exact iht.1 d
          · have hp2 : isAsciiPunct (canonCharMap a) = false := by
              simpa using hpunct
            rw [cleanedAux_other_cons d _ hdash hp2, cleanedAux_other_cons d _ hdash hp2,
              iht.1 false]
      · rw [h2, List.map_cons, List.map_cons]
        by_cases hdash : canonCharMap a = '-'
        · rw [hdash, cleanedAux_dash_true, cleanedAux_dash_true, iht.1 true]
        · by_cases hpunct : isAsciiPunct (canonCharMap a)
          · rw [cleanedAux_punct_cons true _ hdash hpunct,
              cleanedAux_punct_cons true _ hdash hpunct]
            exact iht.1 true
          · have hp2 : isAsciiPunct (canonCharMap a) = false := by
              simpa using hpunct
            rw [cleanedAux_other_cons true _ hdash hp2,
              cleanedAux_other_cons true _ hdash hp2, iht.1 false]

theorem canonTail_collapseWs (l : Str)
    (hws : ∀ c ∈ l, isRustWhitespace c = true → c = ' ') :
    canonTail (collapseWs l) = canonTail l := by
  unfold canonTail mapSpaceToDash mapLower
  rw [List.map_map, List.map_map]
  have hmap : ((fun c => if c = ' ' then '-' else c) ∘ asciiToLower) = canonCharMap := rfl
  rw [hmap]
  unfold collapseWs
  rw [(cleanedAux_collapse_sync l hws).1 false]

theorem noBackslashS_tail {c : Char} {t : Str} (h : noBackslashS (c :: t) = true) :
    noBackslashS t = true := by
  cases t with
  | nil => rfl
  | cons b t' =>
    unfold noBackslashS at h
    simp only [Bool.and_eq_true] at h
    exact h.2

theorem noBackslashS_head_bs {t : Str} (h : noBackslashS ('\\' :: t) = true) :
    t.head? ≠ some 's' := by
  cases t with
  | nil => simp
  | cons b t' =>
    intro hb
    simp only [List.head?_cons, Option.some.injEq] at hb
    subst hb
    unfold noBackslashS at h
    simp at h

theorem collapseBSAux_noBS :
    ∀ l : Str, noBackslashS l = true →
      (collapseBSAux .normal l = l ∧
        (l.head? ≠ some 's' → collapseBSAux .sawBackslash l = '\\' :: l)) := by
  intro l
  induction l with
  | nil => exact fun _ => ⟨rfl, fun _ => rfl⟩
  | cons c t ih =>
    intro h
    have iht := ih (noBackslashS_tail h)
    constructor
    · unfold collapseBSAux
      by_cases hc : c = '\\'
      · rw [if_pos hc]
        subst hc
        rw [iht.2 (noBackslashS_head_bs h)]
      · rw [if_neg hc, iht.1]
    · intro hhead
      have hcs : ¬ c = 's' := by
        intro hcc
        subst hcc
        exact hhead rfl
      unfold collapseBSAux
      rw [if_neg hcs]
      by_cases hc : c = '\\'
      · rw [if_pos hc]
        subst hc
        rw [iht.2 (noBackslashS_head_bs h)]
      · rw [if_neg hc, iht.1]

theorem collapseBS_eq_self_of_noBS {l : Str} (h : noBackslashS l = true) :
    collapseBS l = l := (collapseBSAux_noBS l h).1

/-- C4 (amended): the two canonicalization implementations agree - same
successes with equal keys, same `Empty` failures - on every input whose
trimmed form contains no whitespace character other than the space and no
backslash immediately followed by an `s` (so the mis-quoted domain regex
`r"\\s+"` has nothing to match); they genuinely diverge only on inputs with
non-space whitespace (e.g. a tab) or a backslash-`s` sequence. -/
theorem canonicalize_agrees_on_plain :
    ∀ x : Str,
      (∀ c ∈ rustTrim x, isRustWhitespace c = true → c = ' ') →
      noBackslashS (rustTrim x) = true →
      (∀ k, canonicalize x = .ok k ↔ canonicalKeyNew x = .ok k) ∧
      (canonicalize x = .error .Empty ↔ canonicalKeyNew x = .error .Empty) := by
  intro x hws hbs
  have hc2 : collapseBS (rustTrim x) = rustTrim x := collapseBS_eq_self_of_noBS hbs
  have hA := strip_collapse_comm (rustTrim x)
  have hwsB : ∀ c ∈ rustTrim (trimBy isAsciiPunct (rustTrim x)),
      isRustWhitespace c = true → c = ' ' := by
    intro c hc hw
    unfold rustTrim at hc
    exact hws c (mem_of_mem_trimBy (mem_of_mem_trimBy hc)) hw
  have hCT := canonTail_collapseWs (rustTrim (trimBy isAsciiPunct (rustTrim x))) hwsB
  have hNil := collapseWs_eq_nil_iff (rustTrim (trimBy isAsciiPunct (rustTrim x)))
  constructor
  · intro k
    unfold canonicalize canonicalKeyNew normalize_canonical_text
    rw [hc2, hA, hCT]
    simp only [hNil]
    by_cases ht : rustTrim x = [] <;>
      by_cases hS : rustTrim (trimBy isAsciiPunct (rustTrim x)) = [] <;>
      by_cases hC : canonTail (rustTrim (trimBy isAsciiPunct (rustTrim x))) = [] <;>
      simp [ht, hS, hC]
  · unfold canonicalize canonicalKeyNew normalize_canonical_text
    rw [hc2, hA, hCT]
    simp only [hNil]
    by_cases ht : rustTrim x = [] <;>
      by_cases hS : rustTrim (trimBy isAsciiPunct (rustTrim x)) = [] <;>
      by_cases hC : canonTail (rustTrim (trimBy isAsciiPunct (rustTrim x))) = [] <;>
      simp [ht, hS, hC]

/-- Witness for the amended C4 at the input `"  Graph   Database  "`, whose
trimmed form contains consecutive spaces (and the letter `s`, but no
backslash). -/
theorem canonicalize_agrees_on_plain_witness :
    canonicalize [' ', ' ', 'G', 'r', 'a', 'p', 'h', ' ', ' ', ' ',
        'D', 'a', 't', 'a', 'b', 'a', 's', 'e', ' ', ' '] =
        .ok ['g', 'r', 'a', 'p', 'h', '-', 'd', 'a', 't', 'a', 'b', 'a', 's', 'e'] ↔
      canonicalKeyNew [' ', ' ', 'G', 'r', 'a', 'p', 'h', ' ', ' ', ' ',
        'D', 'a', 't', 'a', 'b', 'a', 's', 'e', ' ', ' '] =
        .ok ['g', 'r', 'a', 'p', 'h', '-', 'd', 'a', 't', 'a', 'b', 'a', 's', 'e'] :=
  (canonicalize_agrees_on_plain
    [' ', ' ', 'G', 'r', 'a', 'p', 'h', ' ', ' ', ' ',
      'D', 'a', 't', 'a', 'b', 'a', 's', 'e', ' ', ' ']
    (by decide) (by decide)).1
    ['g', 'r', 'a', 'p', 'h', '-', 'd', 'a', 't', 'a', 'b', 'a', 's', 'e']

/-- C8 (amended): for a query whose trimmed text is non-empty, free of ASCII
punctuation, and whose whitespace consists of single (non-consecutive) space
characters, the Word-scope search pattern body `canonical_like_pattern` is
exactly the canonicalization of the query, and the bound pattern surrounds it
with `%` wildcards.  (For queries with punctuation or other whitespace the
two can differ: see the counterexample.) -/
theorem search_pattern_canonical :
    ∀ q : Str,
      rustTrim q ≠ [] →
      (∀ c ∈ rustTrim q, isAsciiPunct c = false) →
      (∀ c ∈ rustTrim q, isRustWhitespace c = true → c = ' ') →
      noTwoConsec isRustWhitespace (rustTrim q) = true →
      canonicalize q = .ok (canonical_like_pattern (rustTrim q)) ∧
      searchWordPattern q = '%' :: (canonical_like_pattern (rustTrim q) ++ ['%']) := by
  intro q hne hpunct hws hcons
  have hheadws : ∀ c, (rustTrim q).head? = some c → isRustWhitespace c = false := by
    intro c hc
    unfold rustTrim at hc
    exact trimBy_head isRustWhitespace q hc
  have hlastws : ∀ c, (rustTrim q).getLast? = some c → isRustWhitespace c = false := by
    intro c hc
    unfold rustTrim at hc
    exact trimBy_getLast isRustWhitespace q hc
  have hc1 : collapseWs (rustTrim q) = rustTrim q := by
    unfold collapseWs
    exact collapseWsAux_eq_self _ false hws hcons (fun hb => absurd hb (by simp))
  have hp1 : trimBy isAsciiPunct (rustTrim q) = rustTrim q :=
    trimBy_eq_self _ _ (fun c hc => hpunct c (mem_of_head? hc))
      (fun c hc => hpunct c (mem_of_getLast? hc))
  have ht2 : rustTrim (rustTrim q) = rustTrim q := by
    unfold rustTrim
    exact trimBy_eq_self _ _ hheadws hlastws
  -- the pipeline tail acts as the identity on the lowered, dash-replaced query
  have hfact : mapSpaceToDash (mapLower (rustTrim q)) =
      (rustTrim q).map ((fun c => if c = ' ' then '-' else c) ∘ asciiToLower) := by
    unfold mapSpaceToDash mapLower
    exact List.map_map _ _ _
  have himg : ∀ c ∈ rustTrim q,
      ((fun c => if c = ' ' then '-' else c) ∘ asciiToLower) c = '-' →
        isRustWhitespace c = true := by
    intro c hcmem hc
    simp only [Function.comp] at hc
    by_cases hsp : asciiToLower c = ' '
    · exact ws_of_eq_space ((asciiToLower_eq_space_iff c).mp hsp)
    · rw [if_neg hsp] at hc
      have hdash := (asciiToLower_eq_dash_iff c).mp hc
      have hpc : isAsciiPunct c = true := by rw [hdash]; decide
      rw [hpunct c hcmem] at hpc
      exact absurd hpc (by simp)
  have hpd2 : ∀ x ∈ mapSpaceToDash (mapLower (rustTrim q)),
      isAsciiPunct x = true → x = '-' := by
    rw [hfact]
    intro x hx hp
    rcases List.mem_map.mp hx with ⟨e, he, hex⟩
    simp only [Function.comp] at hex
    by_cases hsp : asciiToLower e = ' '
    · rw [if_pos hsp] at hex; exact hex.symm
    · rw [if_neg hsp] at hex
      rw [← hex, punct_asciiToLower] at hp
      exact absurd hp (by simp [hpunct e he])
  have hcons2 : noTwoConsec isDash (mapSpaceToDash (mapLower (rustTrim q))) = true := by
    rw [hfact]
    apply noTwoConsec_map _ hcons
    intro c hc hd
    apply himg c hc
    simp only [isDash, decide_eq_true_eq] at hd
    exact hd
  have hhead2 : ∀ c, (mapSpaceToDash (mapLower (rustTrim q))).head? = some c → c ≠ '-' := by
    rw [hfact]
    intro c hc
    rw [List.head?_map] at hc
    cases hq : (rustTrim q).head? with
    | none => rw [hq] at hc; exact absurd hc (by simp)
    | some e =>
      rw [hq] at hc
      simp only [Option.map_some', Option.some.injEq] at hc
      intro hcd
      rw [← hc] at hcd
      exact absurd (himg e (mem_of_head? hq) hcd) (by simp [hheadws e hq])
  have hlast2 : ∀ c, (mapSpaceToDash (mapLower (rustTrim q))).getLast? = some c → c ≠ '-' := by
    rw [hfact]
    intro c hc
    rw [List.getLast?_map] at hc
    cases hq : (rustTrim q).getLast? with
    | none => rw [hq] at hc; exact absurd hc (by simp)
    | some e =>
      rw [hq] at hc
      simp only [Option.map_some', Option.some.injEq] at hc
      intro hcd
      rw [← hc] at hcd
      exact absurd (himg e (mem_of_getLast? hq) hcd) (by simp [hlastws e hq])
  have hclean2 : cleanedAux false (mapSpaceToDash (mapLower (rustTrim q))) =
      mapSpaceToDash (mapLower (rustTrim q)) :=
    cleanedAux_eq_self _ false hpd2 hcons2 (fun hb => absurd hb (by simp))
  have htd2 : trimDash (mapSpaceToDash (mapLower (rustTrim q))) =
      mapSpaceToDash (mapLower (rustTrim q)) := by
    unfold trimDash
    apply trimBy_eq_self
    · intro c hc; exact isDash_eq_false_iff.mpr (hhead2 c hc)
    · intro c hc; exact isDash_eq_false_iff.mpr (hlast2 c hc)
  have hRne : mapSpaceToDash (mapLower (rustTrim q)) ≠ [] := by
    rw [hfact]
    simpa using hne
  constructor
  · unfold canonicalize canonTail canonical_like_pattern
    rw [hc1, hp1, ht2, hclean2, htd2]
    rw [if_neg hne, if_neg hne, if_neg hRne]
  · rfl

/-- Witness for the amended C8 at the query `" Graph Database "`. -/
theorem search_pattern_canonical_witness :
    canonicalize [' ', 'G', 'r', 'a', 'p', 'h', ' ', 'D', 'a', 't', 'a', 'b', 'a', 's', 'e', ' '] =
      .ok (canonical_like_pattern
        (rustTrim [' ', 'G', 'r', 'a', 'p', 'h', ' ', 'D', 'a', 't', 'a', 'b', 'a', 's', 'e', ' '])) :=
  (search_pattern_canonical
    [' ', 'G', 'r', 'a', 'p', 'h', ' ', 'D', 'a', 't', 'a', 'b', 'a', 's', 'e', ' ']
    (by decide) (by decide) (by decide) (by decide)).1

/-- Counterexample to C8 as stated: for the query `"Hello, World"` the
canonicalized key is `"hello-world"` but the Word-scope search pattern is
`"%hello,-world%"` — `canonical_like_pattern` keeps the comma that
`canonicalize` strips. -/
theorem search_pattern_counterexample :
    canonicalize ['H', 'e', 'l', 'l', 'o', ',', ' ', 'W', 'o', 'r', 'l', 'd'] =
      .ok ['h', 'e', 'l', 'l', 'o', '-', 'w', 'o', 'r', 'l', 'd'] ∧
    canonical_like_pattern ['H', 'e', 'l', 'l', 'o', ',', ' ', 'W', 'o', 'r', 'l', 'd'] =
      ['h', 'e', 'l', 'l', 'o', ',', '-', 'w', 'o', 'r', 'l', 'd'] ∧
    searchWordPattern ['H', 'e', 'l', 'l', 'o', ',', ' ', 'W', 'o', 'r', 'l', 'd'] =
      '%' :: (['h', 'e', 'l', 'l', 'o', ',', '-', 'w', 'o', 'r', 'l', 'd'] ++ ['%']) ∧
    (['h', 'e', 'l', 'l', 'o', ',', '-', 'w', 'o', 'r', 'l', 'd'] : Str) ≠
      ['h', 'e', 'l', 'l', 'o', '-', 'w', 'o', 'r', 'l', 'd'] := by decide

/-- Witness for C2 at the concrete input `"  Graph   Database  "` from the
repository's own tests, whose canonicalization is `"graph-database"`. -/
theorem canonicalize_idempotent_witness :
    canonicalize ['g', 'r', 'a', 'p', 'h', '-', 'd', 'a', 't', 'a', 'b', 'a', 's', 'e'] =
      .ok ['g', 'r', 'a', 'p', 'h', '-', 'd', 'a', 't', 'a', 'b', 'a', 's', 'e'] :=
  canonicalize_idempotent
    [' ', ' ', 'G', 'r', 'a', 'p', 'h', ' ', ' ', ' ', 'D', 'a', 't', 'a', 'b', 'a', 's', 'e', ' ', ' ']
    ['g', 'r', 'a', 'p', 'h', '-', 'd', 'a', 't', 'a', 'b', 'a', 's', 'e'] (by decide)

/-! ## The single-primary invariant of `UserWord` -/

theorem insertSorted_perm (s : UserSense) (l : List UserSense) :
    (insertSorted s l).Perm (s :: l) := by
  induction l with
  | nil => exact List.Perm.refl _
  | cons t rest ih =>
    unfold insertSorted
    by_cases h : t.sort_order ≤ s.sort_order
    · rw [if_pos h]
      exact (ih.cons t).trans (List.Perm.swap s t rest)
    · rw [if_neg h]

theorem foldl_insertSorted_perm :
    ∀ (l acc : List UserSense),
      (l.foldl (fun acc s => insertSorted s acc) acc).Perm (acc ++ l) := by
  intro l
  induction l with
  | nil => intro acc; simp
  | cons s rest ih =>
    intro acc
    rw [List.foldl_cons]
    refine (ih (insertSorted s acc)).trans ?_
    have h3 : (insertSorted s acc ++ rest).Perm ((s :: acc) ++ rest) :=
      (insertSorted_perm s acc).append_right rest
    exact h3.trans List.perm_middle.symm

theorem sortBySortOrder_perm (l : List UserSense) : (sortBySortOrder l).Perm l := by
  unfold sortBySortOrder
  simpa using foldl_insertSorted_perm l []

theorem countP_clear_primary (l : List UserSense) :
    (l.map (fun s => { s with is_primary := false })).countP (fun s => s.is_primary) = 0 := by
  apply List.countP_eq_zero.mpr
  intro a ha
  rcases List.mem_map.mp ha with ⟨s, _, hs⟩
  rw [← hs]
  simp

theorem senseIds_map (g : UserSense → UserSense) (hg : ∀ s, (g s).id = s.id)
    (l : List UserSense) : senseIds (l.map g) = senseIds l := by
  unfold senseIds
  rw [List.filterMap_map]
  congr 1
  funext s
  exact hg s

theorem senseIds_append (l m : List UserSense) :
    senseIds (l ++ m) = senseIds l ++ senseIds m := by
  unfold senseIds
  exact List.filterMap_append l m _

theorem senseIds_perm {l m : List UserSense} (h : l.Perm m) :
    (senseIds l).Perm (senseIds m) := h.filterMap _

theorem assignPrimaryFrom_ids (i : Nat) :
    ∀ (l : List UserSense) (k : Nat), senseIds (assignPrimaryFrom k i l) = senseIds l := by
  intro l
  induction l with
  | nil => intro k; rfl
  | cons s rest ih =>
    intro k
    unfold assignPrimaryFrom senseIds
    rw [List.filterMap_cons, List.filterMap_cons]
    cases hid : s.id with
    | none => simpa [senseIds] using ih (k + 1)
    | some v => simpa [senseIds] using ih (k + 1)

theorem assignPrimaryFrom_countP_zero (i : Nat) :
    ∀ (l : List UserSense) (k : Nat), i < k →
      (assignPrimaryFrom k i l).countP (fun s => s.is_primary) = 0 := by
  intro l
  induction l with
  | nil => intro k _; rfl
  | cons s rest ih =>
    intro k hk
    unfold assignPrimaryFrom
    rw [List.countP_cons]
    have hki : (k == i) = false := by simp; omega
    rw [ih (k + 1) (by omega)]
    simp [hki]

theorem assignPrimaryFrom_countP_le (i : Nat) :
    ∀ (l : List UserSense) (k : Nat),
      (assignPrimaryFrom k i l).countP (fun s => s.is_primary) ≤ 1 := by
  intro l
  induction l with
  | nil => intro k; simp [assignPrimaryFrom]
  | cons s rest ih =>
    intro k
    unfold assignPrimaryFrom
    rw [List.countP_cons]
    by_cases hk : k = i
    · subst hk
      rw [assignPrimaryFrom_countP_zero k rest (k + 1) (by omega)]
      simp
    · have hki : (k == i) = false := by simp [hk]
      have := ih (k + 1)
      simp [hki]
      omega

theorem countP_id_eq_zero_of_not_mem {sid : Int} {l : List UserSense}
    (h : sid ∉ senseIds l) : l.countP (fun s => s.id == some sid) = 0 := by
  apply List.countP_eq_zero.mpr
  intro a ha hc
  simp only [beq_iff_eq] at hc
  exact h (List.mem_filterMap.mpr ⟨a, ha, hc⟩)

theorem countP_id_le_one {sid : Int} :
    ∀ {l : List UserSense}, (senseIds l).Nodup →
      l.countP (fun s => s.id == some sid) ≤ 1 := by
  intro l
  induction l with
  | nil => intro _; simp
  | cons s rest ih =>
    intro hnd
    rw [List.countP_cons]
    cases hid : s.id with
    | none =>
      have hrest : (senseIds rest).Nodup := by
        unfold senseIds at hnd ⊢
        rwa [List.filterMap_cons, hid] at hnd
      have hb : (s.id == some sid) = false := by simp [hid]
      simp [hb]
      exact ih hrest
    | some v =>
      have hnd' := hnd
      unfold senseIds at hnd'
      rw [List.filterMap_cons, hid] at hnd'
      rw [List.nodup_cons] at hnd'
      by_cases hv : v = sid
      · subst hv
        have h0 : rest.countP (fun s => s.id == some v) = 0 := by
          apply countP_id_eq_zero_of_not_mem
          exact hnd'.1
        rw [h0]
        simp [hid]
      · have h1 := ih hnd'.2
        have hb : ((some v == some sid) : Bool) = false := by simp [hv]
        rw [hb]
        simpa using h1

theorem opsAddedIds_cons (op : WordOp) (rest : List WordOp) :
    opsAddedIds (op :: rest) = opAddedIds op ++ opsAddedIds rest := by
  simp [opsAddedIds]

theorem primaryCount_mk (w : UserWord) (l : List UserSense) :
    primaryCount { w with senses := l } = l.countP (fun s => s.is_primary) := rfl

theorem senseIds_singleton (s : UserSense) : senseIds [s] = s.id.toList := by
  unfold senseIds
  cases h : s.id with
  | none => simp [List.filterMap_cons, h]
  | some v => simp [List.filterMap_cons, h]

/-- Each operation preserves `primaryCount ≤ 1` and the sense-id bookkeeping
needed for `set_primary_by_id`, provided the ids added by the remaining
`addSense` operations stay disjoint from everything already present. -/
theorem runOps_invariant :
    ∀ (ops : List WordOp) (w : UserWord),
      primaryCount w ≤ 1 →
      (senseIds w.senses ++ opsAddedIds ops).Nodup →
      primaryCount (runOps w ops) ≤ 1 := by
  intro ops
  induction ops with
  | nil =>
    intro w h _
    simpa [runOps] using h
  | cons op rest ih =>
    intro w h hnd
    rw [opsAddedIds_cons] at hnd
    have hstep : runOps w (op :: rest) = runOps (applyOp w op) rest := by
      simp [runOps, List.foldl_cons]
    rw [hstep]
    cases op with
    | addSense s =>
      simp only [applyOp, UserWord.add_sense]
      by_cases hdup : w.senses.any (fun ex => eqIgnoreAsciiCase ex.text s.text)
      · rw [if_pos hdup]
        apply ih w h
        have hsub : (senseIds w.senses ++ opsAddedIds rest).Sublist
            (senseIds w.senses ++ (opAddedIds (.addSense s) ++ opsAddedIds rest)) :=
          (List.sublist_append_right _ _).append_left _
        exact hsub.nodup hnd
      · rw [if_neg hdup]
        set w1 := if s.is_primary then w.clear_primary else w with hw1
        set s1 := if s.sort_order = i32Min then { s with sort_order := 0 } else s with hs1
        have hw1ids : senseIds w1.senses = senseIds w.senses := by
          rw [hw1]
          by_cases hp : s.is_primary
          · rw [if_pos hp]
            have hred : w.clear_primary.senses =
                w.senses.map (fun s => { s with is_primary := false }) := rfl
            rw [hred]
            exact senseIds_map (fun s => { s with is_primary := false }) (fun _ => rfl) _
          · rw [if_neg hp]
        have hs1id : s1.id = s.id := by
          rw [hs1]
          by_cases hmin : s.sort_order = i32Min
          · rw [if_pos hmin]
          · rw [if_neg hmin]
        have hperm : (senseIds (sortBySortOrder (w1.senses ++ [s1]))).Perm
            (senseIds w.senses ++ s.id.toList) := by
          refine (senseIds_perm (sortBySortOrder_perm _)).trans ?_
          rw [senseIds_append, hw1ids, senseIds_singleton, hs1id]
        apply ih
        · -- the new aggregate still has at most one primary sense
          show List.countP (fun s => s.is_primary) (sortBySortOrder (w1.senses ++ [s1])) ≤ 1
          rw [(sortBySortOrder_perm (w1.senses ++ [s1])).countP_eq,
            List.countP_append]
          by_cases hp : s.is_primary
          · have hzero : w1.senses.countP (fun s => s.is_primary) = 0 := by
              rw [hw1, if_pos hp]
              have hred : w.clear_primary.senses =
                  w.senses.map (fun s => { s with is_primary := false }) := rfl
              rw [hred]
              exact countP_clear_primary _
            have hone : List.countP (fun s => s.is_primary) [s1] ≤ 1 := by
              rw [List.countP_cons]
              by_cases hq : s1.is_primary = true <;> simp [hq]
            omega
          · have hcnt : w1.senses.countP (fun s => s.is_primary) ≤ 1 := by
              rw [hw1, if_neg hp]
              exact h
            have hzero : List.countP (fun s => s.is_primary) [s1] = 0 := by
              have hs1p : s1.is_primary = false := by
                rw [hs1]
                by_cases hmin : s.sort_order = i32Min
                · rw [if_pos hmin]
                  simpa using hp
                · rw [if_neg hmin]
                  simpa using hp
              simp [List.countP_cons, hs1p]
            omega
        · -- the id lists stay duplicate-free
          show (senseIds (sortBySortOrder (w1.senses ++ [s1])) ++ opsAddedIds rest).Nodup
          have hperm2 : (senseIds (sortBySortOrder (w1.senses ++ [s1])) ++ opsAddedIds rest).Perm
              ((senseIds w.senses ++ s.id.toList) ++ opsAddedIds rest) :=
            hperm.append_right _
          apply hperm2.nodup_iff.mpr
          rw [List.append_assoc]
          have : opAddedIds (.addSense s) = s.id.toList := rfl
          rwa [this] at hnd
    | setPrimaryById sid =>
      simp only [applyOp, UserWord.set_primary_by_id]
      have hidsnd : (senseIds w.senses).Nodup :=
        (List.sublist_append_left _ _).nodup hnd
      apply ih
      · rw [primaryCount_mk, List.countP_map]
        exact countP_id_le_one hidsnd
      · show (senseIds (w.senses.map fun s => { s with is_primary := s.id == some sid }) ++
          opsAddedIds rest).Nodup
        rw [senseIds_map (fun s => { s with is_primary := s.id == some sid }) (fun _ => rfl)]
        have hsub : (senseIds w.senses ++ opsAddedIds rest).Sublist
            (senseIds w.senses ++ (opAddedIds (.setPrimaryById sid) ++ opsAddedIds rest)) :=
          (List.sublist_append_right _ _).append_left _
        exact hsub.nodup hnd
    | setPrimaryByIndex i =>
      simp only [applyOp, UserWord.set_primary_by_index]
      by_cases hlen : w.senses.length ≤ i
      · rw [if_pos hlen]
        exact ih w h hnd
      · rw [if_neg hlen]
        apply ih
        · exact assignPrimaryFrom_countP_le i w.senses 0
        · show (senseIds (assignPrimaryFrom 0 i w.senses) ++ opsAddedIds rest).Nodup
          rw [assignPrimaryFrom_ids]
          exact hnd

theorem create_ok_senses {user_id word_id : Int} {tags : List Str} {note : Option Str}
    {w : UserWord} (h : UserWord.create user_id word_id tags note = .ok w) :
    w.senses = [] := by
  unfold UserWord.create at h
  cases h1 : normalize_tags tags with
  | error e => rw [h1] at h; exact absurd h (by simp)
  | ok tags' =>
    rw [h1] at h
    cases h2 : validate_note note with
    | error e => rw [h2] at h; exact absurd h (by simp)
    | ok note' =>
      rw [h2] at h
      injection h with h3
      rw [← h3]

/-- C1 (amended): starting from `UserWord::create`, any sequence of
`add_sense` / `set_primary_by_id` / `set_primary_by_index` calls (successful
or failing) leaves at most one sense with `is_primary == true`, provided the
`Some` ids carried by the added senses are pairwise distinct.  (Without that
proviso the invariant fails: see the counterexample.) -/
theorem user_word_single_primary :
    ∀ (user_id word_id : Int) (tags : List Str) (note : Option Str) (w : UserWord)
      (ops : List WordOp),
      UserWord.create user_id word_id tags note = .ok w →
      (opsAddedIds ops).Nodup →
      primaryCount (runOps w ops) ≤ 1 := by
  intro user_id word_id tags note w ops hc hnd
  have hs := create_ok_senses hc
  apply runOps_invariant
  · unfold primaryCount
    rw [hs]
    simp
  · unfold senseIds
    rw [hs]
    simpa using hnd

/-- Witness for the amended C1: the test scenario (primary sense added first,
then a second sense, then `set_primary_by_index 1` and `set_primary_by_id 2`). -/
theorem user_word_single_primary_witness :
    primaryCount (runOps ⟨none, 1, 1, [], none, []⟩
      [.addSense ⟨none, ['f', 'i', 'r', 's', 't'], true, 0, none⟩,
       .addSense ⟨some 2, ['s', 'e', 'c', 'o', 'n', 'd'], false, 1, none⟩,
       .setPrimaryByIndex 1, .setPrimaryById 2]) ≤ 1 :=
  user_word_single_primary 1 1 [] none ⟨none, 1, 1, [], none, []⟩
    [.addSense ⟨none, ['f', 'i', 'r', 's', 't'], true, 0, none⟩,
     .addSense ⟨some 2, ['s', 'e', 'c', 'o', 'n', 'd'], false, 1, none⟩,
     .setPrimaryByIndex 1, .setPrimaryById 2]
    (by decide) (by decide)

/-- Counterexample to C1 as stated: two senses added with the same `Some` id
both become primary after `set_primary_by_id` of that id, so the aggregate
ends up with two primary senses. -/
theorem user_word_two_primaries_counterexample :
    UserWord.create 1 1 [] none = .ok ⟨none, 1, 1, [], none, []⟩ ∧
    primaryCount (runOps ⟨none, 1, 1, [], none, []⟩
      [.addSense ⟨some 1, ['a'], false, 0, none⟩,
       .addSense ⟨some 1, ['b'], false, 1, none⟩,
       .setPrimaryById 1]) = 2 := by decide

/-- C5: `add_sense` with a sense whose text matches an existing sense's text
case-insensitively fails with `DuplicateSenseText` carrying the new text, and
returns the aggregate exactly as it was (tags, note and the full sense list
included). -/
theorem add_sense_duplicate :
    ∀ (w : UserWord) (s : UserSense),
      (∃ ex ∈ w.senses, eqIgnoreAsciiCase ex.text s.text = true) →
      w.add_sense s = (w, some (.DuplicateSenseText s.text)) := by
  intro w s h
  unfold UserWord.add_sense
  rw [if_pos (List.any_eq_true.mpr h)]

/-- Witness for C5: adding `"Duplicate"` to a word already holding
`"duplicate"`. -/
theorem add_sense_duplicate_witness :
    UserWord.add_sense
        ⟨none, 1, 1, [], none, [⟨none, ['d', 'u', 'p'], false, 0, none⟩]⟩
        ⟨none, ['D', 'U', 'P'], true, 1, none⟩ =
      (⟨none, 1, 1, [], none, [⟨none, ['d', 'u', 'p'], false, 0, none⟩]⟩,
        some (.DuplicateSenseText ['D', 'U', 'P'])) :=
  add_sense_duplicate
    ⟨none, 1, 1, [], none, [⟨none, ['d', 'u', 'p'], false, 0, none⟩]⟩
    ⟨none, ['D', 'U', 'P'], true, 1, none⟩
    (by decide)

/-- C6 evaluation at the failing input: `set_primary_by_id 2` on a word whose
single sense has id `Some 1` and `is_primary == true` returns
`SenseNotFound 2` but also clears the sense's primary flag — the failing call
mutates the aggregate, contradicting the claimed atomicity. -/
theorem set_primary_by_id_mutates_on_failure :
    UserWord.set_primary_by_id
        ⟨some 1, 1, 1, [], none, [⟨some 1, ['a'], true, 0, none⟩]⟩ 2 =
      (⟨some 1, 1, 1, [], none, [⟨some 1, ['a'], false, 0, none⟩]⟩,
        some (UserWordError.SenseNotFound 2)) := by decide

/-! ## The graph store: unordered word links and the timeout wrapper -/

theorem create_params_of_sort_ok {a b mn mx : Int} {u : Int} {kind : WordLinkKind}
    {note : Option Str} (hs : sort_word_ids a b = .ok (mn, mx)) :
    create_word_link_params u a b kind note = .ok ⟨mn, mx, u, kind, note⟩ := by
  unfold create_word_link_params
  rw [hs]

theorem create_params_of_sort_err {a b : Int} {u : Int} {kind : WordLinkKind}
    {note : Option Str} {e : GraphRepositoryError} (hs : sort_word_ids a b = .error e) :
    create_word_link_params u a b kind note = .error e := by
  unfold create_word_link_params
  rw [hs]

/-- C7: `create_word_link` treats its word ids as an unordered pair — equal
ids are rejected with `SelfForbidden` before any store access, and for
distinct ids both argument orders produce the same `MERGE` query parameters,
keyed by `(min, max)`. -/
theorem create_word_link_unordered :
    ∀ (u a b : Int) (kind : WordLinkKind) (note : Option Str),
      (a = b → create_word_link_params u a b kind note =
        .error (.Business (.Link .SelfForbidden))) ∧
      (a ≠ b →
        create_word_link_params u a b kind note =
          .ok ⟨min a b, max a b, u, kind, note⟩ ∧
        create_word_link_params u a b kind note =
          create_word_link_params u b a kind note) := by
  intro u a b kind note
  constructor
  · intro hab
    apply create_params_of_sort_err
    unfold sort_word_ids
    rw [if_pos hab]
  · intro hab
    rcases lt_trichotomy a b with h | h | h
    · have h1 : sort_word_ids a b = .ok (a, b) := by
        unfold sort_word_ids
        rw [if_neg hab, if_pos h]
      have h2 : sort_word_ids b a = .ok (a, b) := by
        unfold sort_word_ids
        rw [if_neg (Ne.symm hab), if_neg (not_lt.mpr h.le)]
      rw [create_params_of_sort_ok h1, create_params_of_sort_ok h2]
      rw [min_eq_left h.le, max_eq_right h.le]
      exact ⟨rfl, rfl⟩
    · exact absurd h hab
    · have h1 : sort_word_ids a b = .ok (b, a) := by
        unfold sort_word_ids
        rw [if_neg hab, if_neg (not_lt.mpr h.le)]
      have h2 : sort_word_ids b a = .ok (b, a) := by
        unfold sort_word_ids
        rw [if_neg (Ne.symm hab), if_pos h]
      rw [create_params_of_sort_ok h1, create_params_of_sort_ok h2]
      rw [min_eq_right h.le, max_eq_left h.le]
      exact ⟨rfl, rfl⟩

/-- Witness for C7 at the spec's own examples: `(5, 5)` is rejected, and
`(3, 7)` and `(7, 3)` build identical query parameters. -/
theorem create_word_link_unordered_witness :
    create_word_link_params 1 5 5 .SimilarForm none =
      .error (.Business (.Link .SelfForbidden)) ∧
    create_word_link_params 1 3 7 .SimilarForm none =
      .ok ⟨min 3 7, max 3 7, 1, .SimilarForm, none⟩ ∧
    create_word_link_params 1 3 7 .SimilarForm none =
      create_word_link_params 1 7 3 .SimilarForm none :=
  ⟨(create_word_link_unordered 1 5 5 .SimilarForm none).1 rfl,
   ((create_word_link_unordered 1 3 7 .SimilarForm none).2 (by decide)).1,
   ((create_word_link_unordered 1 3 7 .SimilarForm none).2 (by decide)).2⟩

/-- C10: in `run_with_timeout`, expiry of the timer maps to `Timeout` and a
backend error maps to `Database e`, two distinct variants; a completed call
yields the rows drained from the stream after the timed window; and every
one of the nine public graph operations routes its query through
`run_with_timeout`, so timer expiry surfaces as `Timeout` from each of them
(for the two creation operations, once their self-link precheck passes). -/
theorem graph_timeout_semantics :
    ∀ (e : Neo4jError) (stream : RowStream)
      (pw : Neo4jRow → Except GraphRepositoryError WordLinkRecord)
      (ps : Neo4jRow → Except GraphRepositoryError SenseWordLinkRecord)
      (u a b sid src tgt wid : Int) (wk : WordLinkKind) (sk : SenseWordLinkKind)
      (note : Option Str) (wf : WordLinkFilter) (sf : SenseLinkFilter),
      run_with_timeout .elapsed = .error .Timeout ∧
      run_with_timeout (.completed (.error e)) = .error (.Database e) ∧
      run_with_timeout (.completed (.ok stream)) = .ok (drainRows stream) ∧
      GraphRepositoryError.Timeout ≠ GraphRepositoryError.Database e ∧
      (a ≠ b → create_word_link pw u a b wk note .elapsed = .error .Timeout) ∧
      (a ≠ b → delete_word_link u a b wk .elapsed = .error .Timeout) ∧
      list_word_links pw wf .elapsed = .error .Timeout ∧
      (src ≠ tgt → create_sense_word_link ps u sid src tgt sk note .elapsed =
        .error .Timeout) ∧
      delete_sense_word_link u sid tgt sk .elapsed = .error .Timeout ∧
      list_sense_word_links ps sf .elapsed = .error .Timeout ∧
      remove_links_for_sense sid .elapsed = .error .Timeout ∧
      upsert_node_word wid .elapsed = .error .Timeout ∧
      upsert_node_sense sid u .elapsed = .error .Timeout := by
  intro e stream pw ps u a b sid src tgt wid wk sk note wf sf
  refine ⟨rfl, rfl, rfl, fun h => GraphRepositoryError.noConfusion h, ?_, ?_, rfl, ?_,
    rfl, rfl, rfl, rfl, rfl⟩
  · intro hab
    unfold create_word_link sort_word_ids
    rw [if_neg hab]
    by_cases hlt : a < b
    · rw [if_pos hlt]
      rfl
    · rw [if_neg hlt]
      rfl
  · intro hab
    unfold delete_word_link sort_word_ids
    rw [if_neg hab]
    by_cases hlt : a < b
    · rw [if_pos hlt]
      rfl
    · rw [if_neg hlt]
      rfl
  · intro hst
    unfold create_sense_word_link
    rw [if_neg hst]
    rfl

/-- Witness for C10: the creation operations with distinct ids, evaluated at
timer expiry. -/
theorem graph_timeout_semantics_witness :
    create_word_link (fun _ => .error (.InvalidData [])) 1 3 7 .SimilarForm none .elapsed =
      .error .Timeout ∧
    delete_word_link 1 3 7 .SimilarForm .elapsed = .error .Timeout ∧
    create_sense_word_link (fun _ => .error (.InvalidData [])) 1 2 3 4 .Synonym none .elapsed =
      .error .Timeout :=
  ⟨(graph_timeout_semantics ⟨0⟩ [] (fun _ => .error (.InvalidData []))
      (fun _ => .error (.InvalidData [])) 1 3 7 2 3 4 9 .SimilarForm .Synonym none
      ⟨1, none, 1, 10, 0⟩ ⟨1, 2, none, 10, 0⟩).2.2.2.2.1 (by decide),
   (graph_timeout_semantics ⟨0⟩ [] (fun _ => .error (.InvalidData []))
      (fun _ => .error (.InvalidData [])) 1 3 7 2 3 4 9 .SimilarForm .Synonym none
      ⟨1, none, 1, 10, 0⟩ ⟨1, 2, none, 10, 0⟩).2.2.2.2.2.1 (by decide),
   (graph_timeout_semantics ⟨0⟩ [] (fun _ => .error (.InvalidData []))
      (fun _ => .error (.InvalidData [])) 1 3 7 2 3 4 9 .SimilarForm .Synonym none
      ⟨1, none, 1, 10, 0⟩ ⟨1, 2, none, 10, 0⟩).2.2.2.2.2.2.2.1 (by decide)⟩

/-! ## Tag normalization -/

theorem go_ok_props :
    ∀ (tags seen out : List Str),
      normalizeTagsGo seen tags = .ok out →
      (∀ t ∈ out, toAsciiLowerStr t ∉ seen) ∧
      List.Pairwise (fun a b => toAsciiLowerStr a ≠ toAsciiLowerStr b) out ∧
      out.Sublist (tags.map rustTrim) := by
  intro tags
  induction tags with
  | nil =>
    intro seen out h
    unfold normalizeTagsGo at h
    injection h with h1
    subst h1
    exact ⟨by simp, by simp, by simp⟩
  | cons raw rest ih =>
    intro seen out h
    unfold normalizeTagsGo at h
    by_cases hb : rustTrim raw = []
    · rw [if_pos hb] at h
      exact absurd h (by simp)
    · rw [if_neg hb] at h
      by_cases hm : tagMatches (rustTrim raw) = true
      · rw [if_neg (fun hn => hn hm)] at h
        by_cases hs : toAsciiLowerStr (rustTrim raw) ∈ seen
        · rw [if_pos hs] at h
          obtain ⟨h1, h2, h3⟩ := ih seen out h
          refine ⟨h1, h2, ?_⟩
          rw [List.map_cons]
          exact h3.cons _
        · rw [if_neg hs] at h
          cases hgo : normalizeTagsGo (toAsciiLowerStr (rustTrim raw) :: seen) rest with
          | error e =>
            rw [hgo] at h
            exact absurd h (by simp)
          | ok tail =>
            rw [hgo] at h
            injection h with h1
            subst h1
            obtain ⟨h1, h2, h3⟩ := ih _ tail hgo
            refine ⟨?_, ?_, ?_⟩
            · intro t ht
              rcases List.mem_cons.mp ht with rfl | ht'
              · exact hs
              · intro hmem
                exact h1 t ht' (List.mem_cons_of_mem _ hmem)
            · rw [List.pairwise_cons]
              refine ⟨?_, h2⟩
              intro t ht heq
              apply h1 t ht
              rw [← heq]
              exact List.mem_cons_self _ _
            · rw [List.map_cons]
              exact h3.cons₂ _
      · rw [if_pos hm] at h
        exact absurd h (by simp)

theorem go_find :
    ∀ (tags seen out : List Str),
      normalizeTagsGo seen tags = .ok out →
      ∀ k : Str, k ∉ seen →
        out.find? (fun t => toAsciiLowerStr t == k) =
          (tags.map rustTrim).find? (fun t => toAsciiLowerStr t == k) := by
  intro tags
  induction tags with
  | nil =>
    intro seen out h k _
    unfold normalizeTagsGo at h
    injection h with h1
    subst h1
    rfl
  | cons raw rest ih =>
    intro seen out h k hk
    unfold normalizeTagsGo at h
    by_cases hb : rustTrim raw = []
    · rw [if_pos hb] at h
      exact absurd h (by simp)
    · rw [if_neg hb] at h
      by_cases hm : tagMatches (rustTrim raw) = true
      · rw [if_neg (fun hn => hn hm)] at h
        by_cases hs : toAsciiLowerStr (rustTrim raw) ∈ seen
        · rw [if_pos hs] at h
          rw [List.map_cons, List.find?_cons_of_neg]
          · exact ih seen out h k hk
          · simp only [beq_iff_eq, Decidable.not_not]
            intro heq
            exact hk (heq ▸ hs)
        · rw [if_neg hs] at h
          cases hgo : normalizeTagsGo (toAsciiLowerStr (rustTrim raw) :: seen) rest with
          | error e =>
            rw [hgo] at h
            exact absurd h (by simp)
          | ok tail =>
            rw [hgo] at h
            injection h with h1
            subst h1
            by_cases hkey : toAsciiLowerStr (rustTrim raw) = k
            · rw [List.map_cons, List.find?_cons_of_pos _ (by simp [hkey]),
                List.find?_cons_of_pos _ (by simp [hkey])]
            · rw [List.map_cons, List.find?_cons_of_neg _ (by simp [hkey]),
                List.find?_cons_of_neg _ (by simp [hkey])]
              apply ih _ tail hgo k
              intro hmem
              rcases List.mem_cons.mp hmem with h' | h'
              · exact hkey h'.symm
              · exact hk h'
      · rw [if_pos hm] at h
        exact absurd h (by simp)

theorem go_ok_of_valid :
    ∀ (tags seen : List Str),
      (∀ t ∈ tags, rustTrim t ≠ [] ∧ tagMatches (rustTrim t) = true) →
      ∃ out, normalizeTagsGo seen tags = .ok out := by
  intro tags
  induction tags with
  | nil =>
    intro seen _
    exact ⟨[], rfl⟩
  | cons raw rest ih =>
    intro seen hvalid
    have hv := hvalid raw (List.mem_cons_self _ _)
    have hvrest : ∀ t ∈ rest, rustTrim t ≠ [] ∧ tagMatches (rustTrim t) = true :=
      fun t ht => hvalid t (List.mem_cons_of_mem _ ht)
    unfold normalizeTagsGo
    rw [if_neg hv.1, if_neg (fun hn => hn hv.2)]
    by_cases hs : toAsciiLowerStr (rustTrim raw) ∈ seen
    · rw [if_pos hs]
      exact ih seen hvrest
    · rw [if_neg hs]
      obtain ⟨out, hgo⟩ := ih (toAsciiLowerStr (rustTrim raw) :: seen) hvrest
      rw [hgo]
      exact ⟨_, rfl⟩

theorem go_invalid :
    ∀ (tags seen : List Str) (t : Str), t ∈ tags →
      (rustTrim t = [] ∨ tagMatches (rustTrim t) = false) →
      ∃ v, normalizeTagsGo seen tags = .error (.InvalidTag v) := by
  intro tags
  induction tags with
  | nil =>
    intro seen t ht _
    simp at ht
  | cons raw rest ih =>
    intro seen t ht hinv
    unfold normalizeTagsGo
    by_cases hb : rustTrim raw = []
    · rw [if_pos hb]
      exact ⟨raw, rfl⟩
    · rw [if_neg hb]
      by_cases hm : tagMatches (rustTrim raw) = true
      · rw [if_neg (fun hn => hn hm)]
        have htrest : t ∈ rest := by
          rcases List.mem_cons.mp ht with rfl | h'
          · rcases hinv with h1 | h1
            · exact absurd h1 hb
            · rw [hm] at h1
              exact absurd h1 (by simp)
          · exact h'
        by_cases hs : toAsciiLowerStr (rustTrim raw) ∈ seen
        · rw [if_pos hs]
          exact ih seen t htrest hinv
        · rw [if_neg hs]
          obtain ⟨v, hgo⟩ := ih (toAsciiLowerStr (rustTrim raw) :: seen) t htrest hinv
          rw [hgo]
          exact ⟨v, rfl⟩
      · rw [if_pos hm]
        exact ⟨rustTrim raw, rfl⟩

theorem go_length_dedup :
    ∀ (tags out : List Str),
      normalizeTagsGo [] tags = .ok out → out.length = dedupCount tags := by
  intro tags out h
  obtain ⟨_, hpw, _⟩ := go_ok_props tags [] out h
  have hfind := go_find tags [] out h
  have hnd1 : (out.map toAsciiLowerStr).Nodup := by
    unfold List.Nodup
    rw [List.pairwise_map]
    exact hpw
  have hmapeq : tags.map (fun t => toAsciiLowerStr (rustTrim t)) =
      (tags.map rustTrim).map toAsciiLowerStr := by
    rw [List.map_map]
    rfl
  have hmem : ∀ x, x ∈ out.map toAsciiLowerStr ↔
      x ∈ (tags.map (fun t => toAsciiLowerStr (rustTrim t))).dedup := by
    intro x
    rw [List.mem_dedup, hmapeq]
    constructor
    · intro hx
      rcases List.mem_map.mp hx with ⟨t, ht, hxt⟩
      have h1 : (out.find? (fun t => toAsciiLowerStr t == x)).isSome :=
        List.find?_isSome.mpr ⟨t, ht, by simp [hxt]⟩
      rw [hfind x (by simp)] at h1
      rcases List.find?_isSome.mp h1 with ⟨u, hu, hpu⟩
      exact List.mem_map.mpr ⟨u, hu, by simpa using hpu⟩
    · intro hx
      rcases List.mem_map.mp hx with ⟨t, ht, hxt⟩
      have h1 : ((tags.map rustTrim).find? (fun t => toAsciiLowerStr t == x)).isSome :=
        List.find?_isSome.mpr ⟨t, ht, by simp [hxt]⟩
      rw [← hfind x (by simp)] at h1
      rcases List.find?_isSome.mp h1 with ⟨u, hu, hpu⟩
      exact List.mem_map.mpr ⟨u, hu, by simpa using hpu⟩
  have hft : (out.map toAsciiLowerStr).toFinset =
      ((tags.map (fun t => toAsciiLowerStr (rustTrim t))).dedup).toFinset := by
    ext x
    simp only [List.mem_toFinset]
    exact hmem x
  have h1 := List.toFinset_card_of_nodup hnd1
  have h2 := List.toFinset_card_of_nodup
    (List.nodup_dedup (tags.map (fun t => toAsciiLowerStr (rustTrim t))))
  unfold dedupCount
  calc out.length = (out.map toAsciiLowerStr).length := (List.length_map _ _).symm
    _ = (out.map toAsciiLowerStr).toFinset.card := h1.symm
    _ = ((tags.map (fun t => toAsciiLowerStr (rustTrim t))).dedup).toFinset.card := by
      rw [hft]
    _ = ((tags.map (fun t => toAsciiLowerStr (rustTrim t))).dedup).length := h2

theorem go_first_invalid :
    ∀ (pre : List Str) (seen : List Str) (t : Str) (post : List Str),
      (∀ u ∈ pre, rustTrim u ≠ [] ∧ tagMatches (rustTrim u) = true) →
      (rustTrim t = [] ∨ tagMatches (rustTrim t) = false) →
      normalizeTagsGo seen (pre ++ t :: post) =
        .error (.InvalidTag (if rustTrim t = [] then t else rustTrim t)) := by
  intro pre
  induction pre with
  | nil =>
    intro seen t post _ hinv
    rw [List.nil_append]
    unfold normalizeTagsGo
    by_cases hb : rustTrim t = []
    · rw [if_pos hb, if_pos hb]
    · have hm : tagMatches (rustTrim t) = false := by
        rcases hinv with h1 | h1
        · exact absurd h1 hb
        · exact h1
      rw [if_neg hb, if_pos (by simp [hm]), if_neg hb]
  | cons u pre' ih =>
    intro seen t post hvalid hinv
    have hu := hvalid u (List.mem_cons_self _ _)
    rw [List.cons_append]
    unfold normalizeTagsGo
    rw [if_neg hu.1, if_neg (fun hn => hn hu.2)]
    by_cases hs : toAsciiLowerStr (rustTrim u) ∈ seen
    · rw [if_pos hs]
      exact ih seen t post (fun v hv => hvalid v (List.mem_cons_of_mem _ hv)) hinv
    · rw [if_neg hs]
      rw [ih (toAsciiLowerStr (rustTrim u) :: seen) t post
        (fun v hv => hvalid v (List.mem_cons_of_mem _ hv)) hinv]

/-- C9: on success, `normalize_tags` returns a list with no two entries equal
case-insensitively, which is a sublist of the trimmed inputs (first-seen
casing, first-occurrence order; the `find?` clause pins each kept entry to
the first input with its key); given only valid tags, it fails with
`TagLimitExceeded` exactly when the case-insensitively deduplicated count
exceeds `MAX_TAGS = 20`; any blank or pattern-violating tag makes it fail
with `InvalidTag`; and the error carries the offending value itself: at the
first invalid tag, the payload is the raw tag when its trim is blank and the
trimmed tag when it violates the pattern, exactly as in the source. -/
theorem normalize_tags_spec :
    ∀ tags : List Str,
      (∀ out, normalize_tags tags = .ok out →
        List.Pairwise (fun a b => toAsciiLowerStr a ≠ toAsciiLowerStr b) out ∧
        out.Sublist (tags.map rustTrim) ∧
        (∀ k, out.find? (fun t => toAsciiLowerStr t == k) =
          (tags.map rustTrim).find? (fun t => toAsciiLowerStr t == k))) ∧
      ((∀ t ∈ tags, rustTrim t ≠ [] ∧ tagMatches (rustTrim t) = true) →
        (normalize_tags tags = .error (.TagLimitExceeded (dedupCount tags)) ↔
          MAX_TAGS < dedupCount tags)) ∧
      (∀ t ∈ tags, (rustTrim t = [] ∨ tagMatches (rustTrim t) = false) →
        ∃ v, normalize_tags tags = .error (.InvalidTag v)) ∧
      (∀ pre t post, tags = pre ++ t :: post →
        (∀ u ∈ pre, rustTrim u ≠ [] ∧ tagMatches (rustTrim u) = true) →
        (rustTrim t = [] ∨ tagMatches (rustTrim t) = false) →
        normalize_tags tags =
          .error (.InvalidTag (if rustTrim t = [] then t else rustTrim t))) := by
  intro tags
  refine ⟨?_, ?_, ?_, ?_⟩
  · intro out h
    unfold normalize_tags at h
    cases hgo : normalizeTagsGo [] tags with
    | error e =>
      rw [hgo] at h
      exact absurd h (by simp)
    | ok n =>
      rw [hgo] at h
      dsimp only at h
      by_cases hlen : MAX_TAGS < n.length
      · rw [if_pos hlen] at h
        exact absurd h (by simp)
      · rw [if_neg hlen] at h
        injection h with h1
        subst h1
        obtain ⟨_, hpw, hsub⟩ := go_ok_props tags [] n hgo
        exact ⟨hpw, hsub, fun k => go_find tags [] n hgo k (by simp)⟩
  · intro hvalid
    obtain ⟨out, hgo⟩ := go_ok_of_valid tags [] hvalid
    have hlen := go_length_dedup tags out hgo
    unfold normalize_tags
    rw [hgo]
    dsimp only
    by_cases hl : MAX_TAGS < out.length
    · rw [if_pos hl]
      constructor
      · intro _
        exact hlen ▸ hl
      · intro _
        rw [hlen]
    · rw [if_neg hl]
      constructor
      · intro hcontra
        exact absurd hcontra (by simp)
      · intro hgt
        exact absurd (by rw [hlen]; exact hgt) hl
  · intro t ht hinv
    obtain ⟨v, hgo⟩ := go_invalid tags [] t ht hinv
    refine ⟨v, ?_⟩
    unfold normalize_tags
    rw [hgo]
  · intro pre t post htags hvalid hinv
    unfold normalize_tags
    rw [htags, go_first_invalid pre [] t post hvalid hinv]

/-- Witness for C9 at the repository test input
`["tag-one", "Tag-One", "tag_two"]`, whose normalization keeps
`["tag-one", "tag_two"]`; the invalid-tag conjunct is instantiated at
`["ok", "bad tag"]`, where the embedded space violates the tag pattern and
the error payload is pinned to the trimmed offending tag. -/
theorem normalize_tags_spec_witness :
    List.Pairwise (fun a b => toAsciiLowerStr a ≠ toAsciiLowerStr b)
      [['t', 'a', 'g', '-', 'o', 'n', 'e'], ['t', 'a', 'g', '_', 't', 'w', 'o']] ∧
    ([['t', 'a', 'g', '-', 'o', 'n', 'e'], ['t', 'a', 'g', '_', 't', 'w', 'o']] : List Str).Sublist
      (([['t', 'a', 'g', '-', 'o', 'n', 'e'], ['T', 'a', 'g', '-', 'O', 'n', 'e'],
        ['t', 'a', 'g', '_', 't', 'w', 'o']] : List Str).map rustTrim) ∧
    (normalize_tags [['t', 'a', 'g', '-', 'o', 'n', 'e'], ['T', 'a', 'g', '-', 'O', 'n', 'e'],
        ['t', 'a', 'g', '_', 't', 'w', 'o']] =
      .error (.TagLimitExceeded (dedupCount [['t', 'a', 'g', '-', 'o', 'n', 'e'],
        ['T', 'a', 'g', '-', 'O', 'n', 'e'], ['t', 'a', 'g', '_', 't', 'w', 'o']])) ↔
      MAX_TAGS < dedupCount [['t', 'a', 'g', '-', 'o', 'n', 'e'],
        ['T', 'a', 'g', '-', 'O', 'n', 'e'], ['t', 'a', 'g', '_', 't', 'w', 'o']]) ∧
    normalize_tags [['o', 'k'], ['b', 'a', 'd', ' ', 't', 'a', 'g']] =
      .error (.InvalidTag ['b', 'a', 'd', ' ', 't', 'a', 'g']) := by
  refine ⟨?_, ?_, ?_, ?_⟩
  · exact ((normalize_tags_spec [['t', 'a', 'g', '-', 'o', 'n', 'e'],
      ['T', 'a', 'g', '-', 'O', 'n', 'e'], ['t', 'a', 'g', '_', 't', 'w', 'o']]).1
      [['t', 'a', 'g', '-', 'o', 'n', 'e'], ['t', 'a', 'g', '_', 't', 'w', 'o']] (by decide)).1
  · exact ((normalize_tags_spec [['t', 'a', 'g', '-', 'o', 'n', 'e'],
      ['T', 'a', 'g', '-', 'O', 'n', 'e'], ['t', 'a', 'g', '_', 't', 'w', 'o']]).1
      [['t', 'a', 'g', '-', 'o', 'n', 'e'], ['t', 'a', 'g', '_', 't', 'w', 'o']] (by decide)).2.1
  · exact (normalize_tags_spec [['t', 'a', 'g', '-', 'o', 'n', 'e'],
      ['T', 'a', 'g', '-', 'O', 'n', 'e'], ['t', 'a', 'g', '_', 't', 'w', 'o']]).2.1 (by decide)
  · exact (normalize_tags_spec [['o', 'k'], ['b', 'a', 'd', ' ', 't', 'a', 'g']]).2.2.2
      [['o', 'k']] ['b', 'a', 'd', ' ', 't', 'a', 'g'] [] rfl (by decide) (by decide)

end WordMesh
